import Mathlib

/-
Verification of the events batcher of `data/source/sync/lib/filters/batcher.go`
(Pydio Cells sync engine).  The Go code is shallowly embedded: Go maps keyed by
string become association lists (`KV`), pointer mutation of a `BatchedEvent`
in place becomes an in-place value update at the same slot (`kvUpdate`), a Go
`delete` on a map becomes `kvErase`, and a Go map assignment becomes
`kvUpsert`.  A nil-pointer dereference (a Go panic) is modelled by `Option`:
`FilterBatch` returns `none` exactly when the Go code would panic.

Endpoint probes (`LoadNode`) are a parameter: `ProbeResult.err` models a
non-nil error, `ProbeResult.missing` models the (nil node, nil error) answer,
`ProbeResult.found n` models a successful load.
-/

namespace Batcher

/-- A filesystem / object-store entry as seen by an endpoint
(`tree.Node`: fields `Path`, `Uuid`, `Etag`, and `IsLeaf()`). -/
structure Node where
  path : String
  uuid : String
  etag : String
  leaf : Bool
deriving DecidableEq

/-- Event types of `common.EventInfo` used by the batcher:
`EventCreate`, `EventRename`, and delete (the `else` branch). -/
inductive EventType where
  | create
  | rename
  | delete
deriving DecidableEq

/-- The fields of `common.EventInfo` that the batcher reads.  `session` is
`Metadata["X-Pydio-Session"]`; a missing metadata key reads as `""` in Go. -/
structure EventInfo where
  type : EventType
  path : String
  folder : Bool
  scanEvent : Bool
  scanSourceNode : Option Node
  operationId : String
  session : String
deriving DecidableEq

/-- A `BatchedEvent`: the key recorded at insertion, the raw event, and the
resolved node slot (nil until filtering fills it).  The `Source`/`Target`
handles are the batcher-wide endpoints and are kept outside the record. -/
structure BatchedEvent where
  key : String
  eventInfo : EventInfo
  node : Option Node
deriving DecidableEq

/-- A Go `map[string]*BatchedEvent` as an association list. -/
abbrev KV := List (String × BatchedEvent)

/-- Go `delete(m, k)`. -/
def kvErase (k : String) (m : KV) : KV :=
  m.filter (fun p => decide (p.1 ≠ k))

/-- Go `m[k] = v` (map assignment; replaces any entry under `k`). -/
def kvUpsert (k : String) (v : BatchedEvent) (m : KV) : KV :=
  kvErase k m ++ [(k, v)]

/-- In-place mutation of the `*BatchedEvent` stored under slot `k`
(Go `entry.Field = x`): the map keys are unchanged. -/
def kvUpdate (k : String) (v : BatchedEvent) (m : KV) : KV :=
  m.map (fun p => if p.1 = k then (p.1, v) else p)

/-- Go `v, ok := m[k]` (the value part). -/
def kvLookup (k : String) (m : KV) : Option BatchedEvent :=
  (m.find? (fun p => decide (p.1 = k))).map Prod.snd

/-- The key set of a collection. -/
def keysOf (m : KV) : List String :=
  m.map Prod.fst

/-- Membership of a key in a collection. -/
def memKeys (k : String) (m : KV) : Prop :=
  k ∈ keysOf m

/-- Every entry sits under its own recorded key (true of every batch the
batcher builds; Go stores each event under `event.Path`, which is also the
stored `Key` field). -/
def kvKeyed (m : KV) : Prop :=
  ∀ p ∈ m, p.1 = p.2.key

/-- Every entry of the collection has a resolved (non-nil) node. -/
def kvNodes (m : KV) : Prop :=
  ∀ p ∈ m, p.2.node.isSome = true

instance decKvKeyed (m : KV) : Decidable (kvKeyed m) :=
  inferInstanceAs (Decidable (∀ p ∈ m, p.1 = p.2.key))

instance decKvNodes (m : KV) : Decidable (kvNodes m) :=
  inferInstanceAs (Decidable (∀ p ∈ m, p.2.node.isSome = true))

instance decMemKeys (k : String) (m : KV) : Decidable (memKeys k m) :=
  inferInstanceAs (Decidable (k ∈ keysOf m))

/-- The `Batch` collections (`CreateFiles`, `CreateFolders`, `Deletes`,
`FileMoves`, `RefreshFilesUuid`).  The refresh set only records keys. -/
structure Batch where
  createFiles : KV
  createFolders : KV
  deletes : KV
  fileMoves : KV
  refreshFilesUuid : List String
deriving DecidableEq

/-- `NewBatch()`: all collections empty. -/
def NewBatch : Batch := ⟨[], [], [], [], []⟩

/-- Outcome of `LoadNode`: a non-nil error, the (nil, nil) "does not exist"
answer, or a loaded node. -/
inductive ProbeResult where
  | err
  | missing
  | found (n : Node)
deriving DecidableEq

/-- The node component of a probe whose error is ignored
(Go `node, _ := LoadNode(...)`). -/
def resultNode : ProbeResult → Option Node
  | .err => none
  | .missing => none
  | .found n => some n

/-- The two endpoints seen by the batcher.  `source` takes the optional
`isLeaf` variadic hint of `LoadNode`; the target probe of the filter never
passes a hint. -/
structure Probes where
  source : String → Option Bool → ProbeResult
  target : String → ProbeResult

/-- The reserved hidden-meta filename `common2.PYDIO_SYNC_HIDDEN_FILE_META`. -/
def pydioHiddenMeta : String := ".pydio"

/-- Accumulate the last path component (model of Go `path.Base` for the paths
the batcher handles, i.e. without trailing slashes). -/
def baseAux : List Char → List Char → List Char
  | [], acc => acc
  | c :: cs, acc => if c = '/' then baseAux cs [] else baseAux cs (acc ++ [c])

/-- Go `path.Base` for slash-separated paths without trailing slashes. -/
def pathBase (p : String) : String :=
  ⟨baseAux p.data []⟩

/-- Go `strings.HasPrefix p s` reversed to prefix-first argument order:
`goHasPref pre s` is true when `s` starts with `pre`. -/
def goHasPref (pre s : String) : Bool :=
  pre.data.isPrefixOf s.data

/-- Go `strings.TrimPrefix`: drop `pre` from the front of `s` when present. -/
def goTrimPref (pre s : String) : String :=
  if goHasPref pre s then ⟨s.data.drop pre.data.length⟩ else s

/-- The resolution of a create entry (both enrichment loops of `FilterBatch`):
adopt the pre-loaded scan node when the event is a scan event carrying one,
otherwise probe the source endpoint at the event path with the given hint. -/
def createProbe (P : Probes) (hint : Option Bool) (e : EventInfo) : ProbeResult :=
  match e.scanSourceNode with
  | some n => if e.scanEvent then .found n else P.source e.path hint
  | none => P.source e.path hint

/-- Phase 1 body for one `CreateFiles` entry (batcher.go lines 68-90).  On a
probe error the entry and any same-key delete are discarded; on success the
node is attached and a UUID-less non-sentinel node is recorded for refresh.
A successful probe returning a nil node makes the Go code dereference
`node.Uuid` on a nil pointer: that panic is the `none` outcome. -/
def phase1Body (P : Probes) (b : Batch) (entry : String × BatchedEvent) : Option Batch :=
  match createProbe P none entry.2.eventInfo with
  | .err =>
      some { b with createFiles := kvErase entry.2.key b.createFiles,
                    deletes := kvErase entry.2.key b.deletes }
  | .missing => none
  | .found n =>
      some { b with
        createFiles := kvUpdate entry.1 { entry.2 with node := some n } b.createFiles,
        refreshFilesUuid :=
          if n.uuid = "" ∧ pathBase n.path ≠ pydioHiddenMeta
          then b.refreshFilesUuid ++ [entry.2.key]
          else b.refreshFilesUuid }

/-- Phase 1 step lifted to the panic-threading accumulator. -/
def phase1Step (P : Probes) : Option Batch → (String × BatchedEvent) → Option Batch
  | none, _ => none
  | some b, entry => phase1Body P b entry

/-- Phase 1: enrich the create-file entries. -/
def phase1 (P : Probes) (b : Batch) : Option Batch :=
  b.createFiles.foldl (phase1Step P) (some b)

/-- Phase 2 body for one `CreateFolders` entry (batcher.go lines 92-109): same
as phase 1 with an `isLeaf=false` hint and no refresh bookkeeping.  The node
is attached without being dereferenced, so a nil node is stored silently. -/
def phase2Step (P : Probes) (b : Batch) (entry : String × BatchedEvent) : Batch :=
  match createProbe P (some false) entry.2.eventInfo with
  | .err =>
      { b with createFolders := kvErase entry.2.key b.createFolders,
               deletes := kvErase entry.2.key b.deletes }
  | .missing =>
      { b with createFolders := kvUpdate entry.1 { entry.2 with node := none } b.createFolders }
  | .found n =>
      { b with createFolders := kvUpdate entry.1 { entry.2 with node := some n } b.createFolders }

/-- Phase 2: enrich the create-folder entries. -/
def phase2 (P : Probes) (b : Batch) : Batch :=
  b.createFolders.foldl (phase2Step P) b

/-- Modelled from the spec: one step of the folder move detector
(`detectFolderMoves`, an external helper of the `filters` package that is not
part of this source file).  Per the spec: for each delete of a folder node
resolvable on the target, look for a create-folder entry whose loaded source
node has the same UUID; on a unique match record the move under the create
key and remove both endpoints from Deletes/CreateFolders. -/
def folderMoveStep (P : Probes) (b : Batch) (entry : String × BatchedEvent) : Batch :=
  match resultNode (P.target entry.2.eventInfo.path) with
  | some n =>
      if n.leaf then b
      else
        match b.createFolders.filter (fun c => decide (c.2.node.map Node.uuid = some n.uuid)) with
        | [cf] =>
            { b with fileMoves := kvUpsert cf.2.key { cf.2 with node := some n } b.fileMoves,
                     createFolders := kvErase cf.2.key b.createFolders,
                     deletes := kvErase entry.2.key b.deletes }
        | _ => b
  | none => b

/-- Modelled from the spec: the folder move detector invoked between the
enrichment phases and the file move detection (batcher.go line 111). -/
def detectFolderMoves (P : Probes) (b : Batch) : Batch :=
  b.deletes.foldl (folderMoveStep P) b

/-- A possible move triple (`Move` of the `filters` package): the delete
entry, the create entry, and the target-side node. -/
structure Move where
  deleteEvent : BatchedEvent
  createEvent : BatchedEvent
  dbNode : Node
deriving DecidableEq

/-- The UUID pass of phase 4 (batcher.go lines 129-139): the first
`CreateFiles` entry whose attached node is non-nil and carries uuid `u`. -/
def findUuidMatch (u : String) (cfs : KV) : Option (String × BatchedEvent) :=
  cfs.find? (fun c => decide (c.2.node.map Node.uuid = some u))

/-- The ETag pass of phase 4 (batcher.go lines 141-152): every `CreateFiles`
entry whose attached node is non-nil and carries etag `e`. -/
def etagMatches (e : String) (cfs : KV) : KV :=
  cfs.filter (fun c => decide (c.2.node.map Node.etag = some e))

/-- The node resolution of a delete entry (batcher.go lines 115-123): the
pre-loaded snapshot node if present, otherwise the target probe at the delete
path with the error ignored. -/
def resolveDelete (P : Probes) (de : BatchedEvent) : Option Node :=
  match de.node with
  | some n => some n
  | none => resultNode (P.target de.eventInfo.path)

/-- Phase 4 body for a delete entry whose node resolved to `n` (batcher.go
lines 124-153): attach the node; for a leaf run the UUID pass (committing the
first match as a move) and otherwise the ETag candidate pass. -/
def phase4Found (st : Batch × List Move) (entry : String × BatchedEvent) (n : Node) :
    Batch × List Move :=
  let de2 := { entry.2 with node := some n }
  let b2 := { st.1 with deletes := kvUpdate entry.1 de2 st.1.deletes }
  if n.leaf then
    match findUuidMatch n.uuid b2.createFiles with
    | some cf =>
        ({ b2 with
            fileMoves := kvUpsert cf.2.key { cf.2 with node := some n } b2.fileMoves,
            deletes := kvErase de2.key b2.deletes,
            createFiles := kvErase cf.2.key b2.createFiles }, st.2)
    | none =>
        (b2, st.2 ++ (etagMatches n.etag b2.createFiles).map (fun cf => ⟨de2, cf.2, n⟩))
  else (b2, st.2)

/-- Phase 4 body for a delete entry with no resolvable target node
(batcher.go lines 154-179): when a same-key create exists, stat the source
path with the matching leaf hint and drop the create if the path is gone;
drop the delete in every case. -/
def phase4None (P : Probes) (st : Batch × List Move) (entry : String × BatchedEvent) :
    Batch × List Move :=
  let de := entry.2
  let cfEx := (kvLookup de.key st.1.createFiles).isSome
  let cfoEx := (kvLookup de.key st.1.createFolders).isSome
  let b2 :=
    if cfEx ∨ cfoEx then
      match resultNode (P.source de.eventInfo.path (some cfEx)) with
      | none =>
          { st.1 with
              createFiles := if cfEx then kvErase de.key st.1.createFiles else st.1.createFiles,
              createFolders := if cfoEx then kvErase de.key st.1.createFolders else st.1.createFolders }
      | some _ => st.1
    else st.1
  ({ b2 with deletes := kvErase de.key b2.deletes }, st.2)

/-- Phase 4 body for one delete entry (batcher.go lines 114-180). -/
def phase4Step (P : Probes) (st : Batch × List Move) (entry : String × BatchedEvent) :
    Batch × List Move :=
  match resolveDelete P entry.2 with
  | some n => phase4Found st entry n
  | none => phase4None P st entry

/-- Phase 4: file move detection over all delete entries, accumulating the
possible ETag moves. -/
def phase4 (P : Probes) (b : Batch) : Batch × List Move :=
  b.deletes.foldl (phase4Step P) (b, [])

/-- Last path component used by the closest-move ranking. -/
def baseNameOf (p : String) : String := pathBase p

/-- Everything before the final slash (model of Go `path.Dir` for the paths
the batcher handles). -/
def dirName (p : String) : String :=
  ⟨((p.data.reverse.dropWhile (fun c => decide (c ≠ '/'))).drop 1).reverse⟩

/-- Slash count as a path depth measure. -/
def pathDepth (p : String) : Nat :=
  p.data.count '/'

/-- Absolute difference of naturals. -/
def natAbsDiff (a b : Nat) : Nat := max a b - min a b

/-- Levenshtein edit distance between two character lists. -/
def editDist : List Char → List Char → Nat
  | [], b => b.length
  | a :: as, [] => (a :: as).length
  | a :: as, b :: bs =>
      if a = b then editDist as bs
      else 1 + min (editDist as (b :: bs)) (min (editDist (a :: as) bs) (editDist as bs))
termination_by a b => a.length + b.length
decreasing_by all_goals simp_arith

/-- Boolean lexicographic order on character lists (by code point). -/
def strLtListB : List Char → List Char → Bool
  | [], [] => false
  | [], _ :: _ => true
  | _ :: _, [] => false
  | a :: as, b :: bs => if a = b then strLtListB as bs else decide (a.val < b.val)

/-- Boolean lexicographic order on strings. -/
def strLtB (a b : String) : Bool := strLtListB a.data b.data

/-- Modelled from the spec: the ranking of a candidate move used by
`sortClosestMoves` (an external helper not in this source file): same parent
directory first, then basename edit distance, then depth difference. -/
def moveRank (m : Move) : Nat × Nat × Nat :=
  let dp := m.deleteEvent.eventInfo.path
  let cp := m.createEvent.eventInfo.path
  ((if dirName dp = dirName cp then 0 else 1),
   editDist (baseNameOf dp).data (baseNameOf cp).data,
   natAbsDiff (pathDepth dp) (pathDepth cp))

/-- Modelled from the spec: the total order on candidate moves, with the
lexicographic (delete-path, create-path) tie-break. -/
def moveLE (a b : Move) : Bool :=
  let ra := moveRank a
  let rb := moveRank b
  if ra.1 ≠ rb.1 then decide (ra.1 < rb.1)
  else if ra.2.1 ≠ rb.2.1 then decide (ra.2.1 < rb.2.1)
  else if ra.2.2 ≠ rb.2.2 then decide (ra.2.2 < rb.2.2)
  else if a.deleteEvent.eventInfo.path ≠ b.deleteEvent.eventInfo.path
    then strLtB a.deleteEvent.eventInfo.path b.deleteEvent.eventInfo.path
  else !(strLtB b.createEvent.eventInfo.path a.createEvent.eventInfo.path)

/-- Ordered insertion for the closest-move sort. -/
def insertLE (x : Move) : List Move → List Move
  | [] => [x]
  | y :: ys => if moveLE x y then x :: y :: ys else y :: insertLE x ys

/-- Modelled from the spec: the proximity sort underlying the closest-move
arbitration, ordering the candidate triples by the `moveLE` total order. -/
def sortMoves (l : List Move) : List Move :=
  l.foldr insertLE []

/-- Modelled from the spec: the greedy consumed-marking pass of the
closest-move arbitration.  The sorted candidates are iterated in order; a
candidate is kept only when neither its delete nor its create has already
been consumed by an earlier kept candidate, and keeping it marks both
consumed.  Unconsumed candidates are discarded. -/
def pickMoves : List String → List String → List Move → List Move
  | _, _, [] => []
  | ds, cs, m :: rest =>
      if m.deleteEvent.key ∈ ds ∨ m.createEvent.key ∈ cs then pickMoves ds cs rest
      else m :: pickMoves (m.deleteEvent.key :: ds) (m.createEvent.key :: cs) rest

/-- Modelled from the spec: `sortClosestMoves` (an external helper not in this
source file) resolves the bipartite matching between deletes and creates
greedily: it sorts the candidate triples by path proximity and keeps those
surviving the consumed-marking pass, so that the commit loop below commits
exactly the arbitrated moves while the Delete and CreateFiles entries of the
discarded candidates remain separate. -/
def sortClosestMoves (l : List Move) : List Move :=
  pickMoves [] [] (sortMoves l)

/-- Committing one sorted move (batcher.go lines 183-189): the create entry
moves to `FileMoves` carrying the target-side node; the delete and create
entries are removed.  The Go loop performs no still-present check. -/
def commitMove (b : Batch) (m : Move) : Batch :=
  { b with
      fileMoves := kvUpsert m.createEvent.key { m.createEvent with node := some m.dbNode } b.fileMoves,
      deletes := kvErase m.deleteEvent.key b.deletes,
      createFiles := kvErase m.createEvent.key b.createFiles }

/-- Phase 5: closest-move arbitration. -/
def phase5 (b : Batch) (cands : List Move) : Batch :=
  (sortClosestMoves cands).foldl commitMove b

/-- The node path of a delete entry as read by the pruning loop
(`folderDeleteEvent.Node.Path`); the default is never reached on the guarded
path because pruning runs only when every delete node is non-nil. -/
def delNodePath (e : BatchedEvent) : String :=
  (e.node.map Node.path).getD ""

/-- The pruning ancestry test of batcher.go line 197:
`len(from) > len(deletePath) && strings.HasPrefix(from, deletePath)` —
a plain prefix test with no path-separator guard. -/
def pruneTest (deletePath fromPath : String) : Bool :=
  decide (deletePath.data.length < fromPath.data.length) && goHasPref deletePath fromPath

/-- The keys collected by the nested pruning loops (batcher.go lines 192-201). -/
def pruneVictims (ds : KV) : List String :=
  ds.foldl
    (fun acc p =>
      acc ++ (ds.filter (fun q => pruneTest (delNodePath p.2) (delNodePath q.2))).map Prod.fst)
    []

/-- Phase 6, delete subtree pruning (batcher.go lines 191-205).  The loop
dereferences every delete node, so a nil node panics: `none`. -/
def pruneDeletes (ds : KV) : Option KV :=
  if ds.all (fun p => p.2.node.isSome) then
    some (ds.filter (fun p => !((pruneVictims ds).contains p.1)))
  else none

/-- The pipeline from phase 2 through phase 5 (all total). -/
def postPhase1 (P : Probes) (b1 : Batch) : Batch :=
  let b3 := detectFolderMoves P (phase2 P b1)
  let s4 := phase4 P b3
  phase5 s4.1 s4.2

/-- `FilterBatch` (batcher.go lines 62-211): the enrichment phases, the folder
move detector, file move detection, closest-move arbitration, and delete
pruning, run in order on the batch.  `none` models a Go panic. -/
def FilterBatch (P : Probes) (b : Batch) : Option Batch :=
  (phase1 P b).bind fun b1 =>
    let b5 := postPhase1 P b1
    (pruneDeletes b5.deletes).map fun ds => { b5 with deletes := ds }

/-- The population loop of `ProcessEvents` (batcher.go lines 224-242): each
event is keyed by its path; creates and renames go to `CreateFolders` or
`CreateFiles` by the folder flag, everything else to `Deletes`. -/
def populateStep (b : Batch) (e : EventInfo) : Batch :=
  let be : BatchedEvent := ⟨e.path, e, none⟩
  if e.type = .create ∨ e.type = .rename then
    if e.folder then { b with createFolders := kvUpsert e.path be b.createFolders }
    else { b with createFiles := kvUpsert e.path be b.createFiles }
  else { b with deletes := kvUpsert e.path be b.deletes }

/-- The batch built by `ProcessEvents` before filtering. -/
def populateBatch (events : List EventInfo) : Batch :=
  events.foldl populateStep NewBatch

set_option linter.unusedVariables false in
/-- `ProcessEvents` (batcher.go lines 213-246): build the batch from the
events, filter it, and emit it.  The `asSession` argument is accepted but
never used by the body (its only use is commented out in the source). -/
def ProcessEvents (P : Probes) (events : List EventInfo) (asSession : Bool) : Option Batch :=
  FilterBatch P (populateBatch events)

/-- The session-buffer map and the anonymous buffer of the `BatchEvents`
selector loop (`batchCache` and the local `batch` slice). -/
structure SchedState where
  cache : List (String × List EventInfo)
  anon : List EventInfo
deriving DecidableEq

/-- The three arms of the `BatchEvents` select: an incoming event, a forced
session close, and a firing of the quiescence timer. -/
inductive SchedInput where
  | ev (e : EventInfo)
  | closeSession (s : String)
  | timeout
deriving DecidableEq

/-- A flush performed by the scheduler: which session buffer it drained
(`none` for the anonymous buffer), the drained events in order, and the
`asSession` flag passed to `ProcessEvents`. -/
structure Flush where
  tag : Option String
  events : List EventInfo
  asSession : Bool
deriving DecidableEq

/-- Buffer of a session tag (`batchCache[s]`; a missing key reads as nil). -/
def cacheGet (s : String) (c : List (String × List EventInfo)) : List EventInfo :=
  ((c.find? (fun p => decide (p.1 = s))).map Prod.snd).getD []

/-- Assignment `batchCache[s] = v`. -/
def cacheSet (s : String) (v : List EventInfo) (c : List (String × List EventInfo)) :
    List (String × List EventInfo) :=
  c.filter (fun p => decide (p.1 ≠ s)) ++ [(s, v)]

/-- Go `delete(batchCache, s)`. -/
def cacheDel (s : String) (c : List (String × List EventInfo)) :
    List (String × List EventInfo) :=
  c.filter (fun p => decide (p.1 ≠ s))

/-- Go `_, ok := batchCache[s]`. -/
def cacheHas (s : String) (c : List (String × List EventInfo)) : Bool :=
  (c.find? (fun p => decide (p.1 = s))).isSome

/-- The inline session-close marker prefix. -/
def closePref : String := "close-"

/-- One select iteration of `BatchEvents` (batcher.go lines 253-293): events
with a `close-`-prefixed session tag are appended to the stripped tag buffer,
which is flushed and removed; other tagged events are buffered under their
tag; untagged scan or free events join the anonymous buffer; events carrying
an operation id but no session tag are dropped; a force close flushes the
named buffer when present; the timer flushes a non-empty anonymous buffer. -/
def schedStep (st : SchedState) (i : SchedInput) : SchedState × List Flush :=
  match i with
  | .ev e =>
      if e.session ≠ "" then
        if goHasPref closePref e.session then
          let s := goTrimPref closePref e.session
          let buf := cacheGet s st.cache ++ [e]
          (⟨cacheDel s st.cache, st.anon⟩, [⟨some s, buf, true⟩])
        else
          (⟨cacheSet e.session (cacheGet e.session st.cache ++ [e]) st.cache, st.anon⟩, [])
      else if e.scanEvent = true ∨ e.operationId = "" then
        (⟨st.cache, st.anon ++ [e]⟩, [])
      else (st, [])
  | .closeSession s =>
      if cacheHas s st.cache then
        (⟨cacheDel s st.cache, st.anon⟩, [⟨some s, cacheGet s st.cache, true⟩])
      else (st, [])
  | .timeout =>
      if st.anon ≠ [] then (⟨st.cache, []⟩, [⟨none, st.anon, false⟩]) else (st, [])

/-- Run the selector loop over a list of inputs, accumulating flushes. -/
def schedRun (st : SchedState) (l : List SchedInput) : SchedState × List Flush :=
  l.foldl (fun acc i => let r := schedStep acc.1 i; (r.1, acc.2 ++ r.2)) (st, [])

/-- The events of an input list bearing session tag `s`. -/
def sessionEvs (s : String) (l : List SchedInput) : List EventInfo :=
  l.filterMap (fun i =>
    match i with
    | .ev e => if e.session = s then some e else none
    | _ => none)

/-- Inputs that close the session buffer of tag `s`: an inline close event
or a forced close control message. -/
def closesTag (s : String) (i : SchedInput) : Prop :=
  match i with
  | .ev e => goHasPref closePref e.session = true ∧ goTrimPref closePref e.session = s
  | .closeSession u => u = s
  | .timeout => False

/-- Inputs that touch the session buffer of tag `s` at all. -/
def touchesTag (s : String) (i : SchedInput) : Prop :=
  (match i with
   | .ev e => e.session = s
   | _ => False) ∨ closesTag s i

/-- Timed model of the anonymous path of the `BatchEvents` loop.  The trace
is the list of arrival instants of anonymous free events, in order; `now` is
the instant the current select iteration started; `buf` is the anonymous
buffer length.  Each select iteration calls `time.After(D)` afresh, so the
timer deadline is `now + D`; an event arriving strictly earlier is consumed
(restarting the timer), otherwise the timer fires at `now + D`, flushing a
non-empty buffer.  The result is the list of flush instants; `fuel` bounds
the number of select iterations modelled, and after the trace is exhausted
the only remaining activity is the final timer flush. -/
def batchLoop (D : Nat) : Nat → List Nat → Nat → Nat → List Nat
  | 0, _, _, _ => []
  | _ + 1, [], now, buf => if buf > 0 then [now + D] else []
  | fuel + 1, t :: rest, now, buf =>
      if t < now + D then batchLoop D fuel rest t (buf + 1)
      else if buf > 0 then (now + D) :: batchLoop D fuel (t :: rest) (now + D) 0
      else batchLoop D fuel (t :: rest) (now + D) 0

/-! ### Association-list lemmas -/

theorem mem_kvErase {p : String × BatchedEvent} {k : String} {m : KV} :
    p ∈ kvErase k m ↔ p ∈ m ∧ p.1 ≠ k := by
  simp [kvErase, List.mem_filter]

theorem mem_kvUpsert {p : String × BatchedEvent} {k : String} {v : BatchedEvent} {m : KV} :
    p ∈ kvUpsert k v m ↔ (p ∈ m ∧ p.1 ≠ k) ∨ p = (k, v) := by
  simp [kvUpsert, mem_kvErase, List.mem_append]

theorem mem_kvUpdate {p : String × BatchedEvent} {k : String} {v : BatchedEvent} {m : KV}
    (h : p ∈ kvUpdate k v m) : (p ∈ m ∧ p.1 ≠ k) ∨ (p.1 = k ∧ p.2 = v) := by
  rcases List.mem_map.1 h with ⟨q, hq, he⟩
  by_cases hk : q.1 = k
  · right
    rw [if_pos hk] at he
    subst he
    exact ⟨hk, rfl⟩
  · left
    rw [if_neg hk] at he
    subst he
    exact ⟨hq, hk⟩

theorem mem_keysOf {k : String} {m : KV} : k ∈ keysOf m ↔ ∃ p ∈ m, p.1 = k := by
  simp [keysOf, List.mem_map]

theorem mem_keysOf_kvErase {j k : String} {m : KV} :
    j ∈ keysOf (kvErase k m) ↔ j ∈ keysOf m ∧ j ≠ k := by
  constructor
  · intro h
    rcases mem_keysOf.1 h with ⟨p, hp, he⟩
    rcases mem_kvErase.1 hp with ⟨hm, hk⟩
    exact ⟨mem_keysOf.2 ⟨p, hm, he⟩, he ▸ hk⟩
  · rintro ⟨h, hk⟩
    rcases mem_keysOf.1 h with ⟨p, hp, he⟩
    exact mem_keysOf.2 ⟨p, mem_kvErase.2 ⟨hp, he ▸ hk⟩, he⟩

theorem mem_keysOf_kvUpsert {j k : String} {v : BatchedEvent} {m : KV} :
    j ∈ keysOf (kvUpsert k v m) ↔ (j ∈ keysOf m ∧ j ≠ k) ∨ j = k := by
  constructor
  · intro h
    rcases mem_keysOf.1 h with ⟨p, hp, he⟩
    rcases mem_kvUpsert.1 hp with ⟨hm, hk⟩ | he2
    · exact Or.inl ⟨mem_keysOf.2 ⟨p, hm, he⟩, he ▸ hk⟩
    · right
      rw [he2] at he
      exact he.symm
  · rintro (⟨h, hk⟩ | rfl)
    · rcases mem_keysOf.1 h with ⟨p, hp, he⟩
      exact mem_keysOf.2 ⟨p, mem_kvUpsert.2 (Or.inl ⟨hp, he ▸ hk⟩), he⟩
    · exact mem_keysOf.2 ⟨(j, v), mem_kvUpsert.2 (Or.inr rfl), rfl⟩

theorem keysOf_kvUpdate {k : String} {v : BatchedEvent} {m : KV} :
    keysOf (kvUpdate k v m) = keysOf m := by
  unfold keysOf kvUpdate
  rw [List.map_map]
  apply List.map_congr_left
  intro p _
  by_cases hk : p.1 = k
  · simp [hk]
  · simp [hk]

theorem mem_keysOf_kvUpdate {j k : String} {v : BatchedEvent} {m : KV} :
    j ∈ keysOf (kvUpdate k v m) ↔ j ∈ keysOf m := by
  rw [keysOf_kvUpdate]

theorem kvKeyed_kvErase {k : String} {m : KV} (h : kvKeyed m) : kvKeyed (kvErase k m) := by
  intro p hp
  exact h p (mem_kvErase.1 hp).1

theorem kvKeyed_kvUpsert {k : String} {v : BatchedEvent} {m : KV}
    (h : kvKeyed m) (hv : v.key = k) : kvKeyed (kvUpsert k v m) := by
  intro p hp
  rcases mem_kvUpsert.1 hp with ⟨hm, _⟩ | rfl
  · exact h p hm
  · exact hv.symm

theorem kvKeyed_kvUpdate {k : String} {v : BatchedEvent} {m : KV}
    (h : kvKeyed m) (hv : v.key = k) : kvKeyed (kvUpdate k v m) := by
  intro p hp
  rcases mem_kvUpdate hp with ⟨hm, _⟩ | ⟨h1, h2⟩
  · exact h p hm
  · rw [h1, h2, hv]

theorem kvNodes_kvErase {k : String} {m : KV} (h : kvNodes m) : kvNodes (kvErase k m) := by
  intro p hp
  exact h p (mem_kvErase.1 hp).1

theorem kvNodes_kvUpsert {k : String} {v : BatchedEvent} {m : KV}
    (h : kvNodes m) (hv : v.node.isSome = true) : kvNodes (kvUpsert k v m) := by
  intro p hp
  rcases mem_kvUpsert.1 hp with ⟨hm, _⟩ | rfl
  · exact h p hm
  · exact hv

theorem kvNodes_filter {f : String × BatchedEvent → Bool} {m : KV} (h : kvNodes m) :
    kvNodes (m.filter f) := by
  intro p hp
  exact h p (List.mem_filter.1 hp).1

/-! ### Generic fold lemmas -/

theorem foldl_pres {α β : Type} (Q : β → Prop) (step : β → α → β) :
    ∀ (l : List α) (init : β), (∀ acc a, a ∈ l → Q acc → Q (step acc a)) → Q init →
      Q (l.foldl step init)
  | [], _, _, h0 => h0
  | a :: t, init, hstep, h0 =>
      foldl_pres Q step t (step init a)
        (fun acc b hb => hstep acc b (List.mem_cons_of_mem _ hb))
        (hstep init a (List.mem_cons_self _ _) h0)

theorem foldl_pres_rem {α β : Type} (Q : β → List α → Prop) (A : α → Prop) (step : β → α → β) :
    ∀ (l : List α) (init : β), (∀ acc a rest, A a → Q acc (a :: rest) → Q (step acc a) rest) →
      (∀ a ∈ l, A a) → Q init l → Q (l.foldl step init) []
  | [], _, _, _, h0 => h0
  | a :: t, init, hstep, hA, h0 =>
      foldl_pres_rem Q A step t (step init a) hstep
        (fun b hb => hA b (List.mem_cons_of_mem _ hb))
        (hstep init a t (hA a (List.mem_cons_self _ _)) h0)

/-! ### Phase 1 and phase 2 lemmas -/

theorem createProbe_eq_missing {P : Probes} {hint : Option Bool} {e : EventInfo}
    (h : createProbe P hint e = .missing) : P.source e.path hint = .missing := by
  unfold createProbe at h
  cases hs : e.scanSourceNode with
  | none =>
      simp only [hs] at h
      exact h
  | some n =>
      simp only [hs] at h
      by_cases he : e.scanEvent = true
      · rw [if_pos he] at h
        cases h
      · rw [if_neg he] at h
        exact h

/-- Phase 1 shrinks the create-file and delete key sets, leaves the folder
and move collections untouched, and preserves keyedness. -/
theorem phase1_props {P : Probes} {b b1 : Batch}
    (hkcf : kvKeyed b.createFiles) (hkd : kvKeyed b.deletes)
    (h : phase1 P b = some b1) :
    (∀ j, memKeys j b1.createFiles → memKeys j b.createFiles) ∧
    (∀ j, memKeys j b1.deletes → memKeys j b.deletes) ∧
    b1.createFolders = b.createFolders ∧
    b1.fileMoves = b.fileMoves ∧
    kvKeyed b1.createFiles ∧ kvKeyed b1.deletes := by
  have hq := foldl_pres
    (fun ob => ∀ c, ob = some c →
      (∀ j, memKeys j c.createFiles → memKeys j b.createFiles) ∧
      (∀ j, memKeys j c.deletes → memKeys j b.deletes) ∧
      c.createFolders = b.createFolders ∧
      c.fileMoves = b.fileMoves ∧
      kvKeyed c.createFiles ∧ kvKeyed c.deletes)
    (phase1Step P) b.createFiles (some b)
    (by
      intro acc a ha hQ c hc
      cases acc with
      | none => cases hc
      | some bm =>
          obtain ⟨h1, h2, h3, h4, h5, h6⟩ := hQ bm rfl
          cases hp : createProbe P none a.2.eventInfo with
          | err =>
              simp only [phase1Step, phase1Body, hp, Option.some.injEq] at hc
              subst hc
              refine ⟨?_, ?_, h3, h4, kvKeyed_kvErase h5, kvKeyed_kvErase h6⟩
              · intro j hj
                exact h1 j (mem_keysOf_kvErase.1 hj).1
              · intro j hj
                exact h2 j (mem_keysOf_kvErase.1 hj).1
          | missing =>
              simp only [phase1Step, phase1Body, hp] at hc
              cases hc
          | found n =>
              simp only [phase1Step, phase1Body, hp, Option.some.injEq] at hc
              subst hc
              refine ⟨?_, h2, h3, h4, ?_, h6⟩
              · intro j hj
                exact h1 j (mem_keysOf_kvUpdate.1 hj)
              · exact kvKeyed_kvUpdate h5 (hkcf a ha).symm)
    (by
      intro c hc
      cases hc
      exact ⟨fun _ hj => hj, fun _ hj => hj, rfl, rfl, hkcf, hkd⟩)
  exact hq b1 h

/-- Phase 1 resolves a node for every surviving create-file entry. -/
theorem phase1_nodes {P : Probes} {b b1 : Batch}
    (hkcf : kvKeyed b.createFiles) (h : phase1 P b = some b1) :
    kvNodes b1.createFiles := by
  have hq := foldl_pres_rem
    (fun ob rem => ∀ c, ob = some c →
      ∀ p ∈ c.createFiles, p.2.node.isSome = true ∨ p.1 ∈ rem.map Prod.fst)
    (fun a => a.1 = a.2.key)
    (phase1Step P) b.createFiles (some b)
    (by
      intro acc a rest hA hQ c hc
      cases acc with
      | none => cases hc
      | some bm =>
          have hm := hQ bm rfl
          cases hp : createProbe P none a.2.eventInfo with
          | err =>
              simp only [phase1Step, phase1Body, hp, Option.some.injEq] at hc
              subst hc
              intro p hp2
              obtain ⟨pm, pk⟩ := mem_kvErase.1 hp2
              rcases hm p pm with hs | hr
              · exact Or.inl hs
              · simp only [List.map_cons, List.mem_cons] at hr
                rcases hr with he | hr
                · exact absurd (he.trans hA) pk
                · exact Or.inr hr
          | missing =>
              simp only [phase1Step, phase1Body, hp] at hc
              cases hc
          | found n =>
              simp only [phase1Step, phase1Body, hp, Option.some.injEq] at hc
              subst hc
              intro p hp2
              rcases mem_kvUpdate hp2 with ⟨pm, pk⟩ | ⟨_, pv⟩
              · rcases hm p pm with hs | hr
                · exact Or.inl hs
                · simp only [List.map_cons, List.mem_cons] at hr
                  rcases hr with he | hr
                  · exact absurd he pk
                  · exact Or.inr hr
              · rw [pv]
                exact Or.inl rfl)
    (fun a ha => hkcf a ha)
    (by
      intro c hc
      cases hc
      intro p hp
      exact Or.inr (List.mem_map.2 ⟨p, hp, rfl⟩))
  intro p hp
  rcases hq b1 h p hp with hs | hr
  · exact hs
  · simp at hr

/-- Phase 2 shrinks the create-folder and delete key sets, leaves the file
and move collections untouched, and preserves keyedness. -/
theorem phase2_props (P : Probes) {b : Batch}
    (hkcfo : kvKeyed b.createFolders) (hkd : kvKeyed b.deletes) :
    (∀ j, memKeys j (phase2 P b).createFolders → memKeys j b.createFolders) ∧
    (∀ j, memKeys j (phase2 P b).deletes → memKeys j b.deletes) ∧
    (phase2 P b).createFiles = b.createFiles ∧
    (phase2 P b).fileMoves = b.fileMoves ∧
    kvKeyed (phase2 P b).createFolders ∧ kvKeyed (phase2 P b).deletes := by
  apply foldl_pres
    (fun c =>
      (∀ j, memKeys j c.createFolders → memKeys j b.createFolders) ∧
      (∀ j, memKeys j c.deletes → memKeys j b.deletes) ∧
      c.createFiles = b.createFiles ∧
      c.fileMoves = b.fileMoves ∧
      kvKeyed c.createFolders ∧ kvKeyed c.deletes)
    (phase2Step P) b.createFolders b
  · intro acc a ha hQ
    obtain ⟨h1, h2, h3, h4, h5, h6⟩ := hQ
    cases hp : createProbe P (some false) a.2.eventInfo with
    | err =>
        simp only [phase2Step, hp]
        refine ⟨?_, ?_, h3, h4, kvKeyed_kvErase h5, kvKeyed_kvErase h6⟩
        · intro j hj
          exact h1 j (mem_keysOf_kvErase.1 hj).1
        · intro j hj
          exact h2 j (mem_keysOf_kvErase.1 hj).1
    | missing =>
        simp only [phase2Step, hp]
        refine ⟨?_, h2, h3, h4, ?_, h6⟩
        · intro j hj
          exact h1 j (mem_keysOf_kvUpdate.1 hj)
        · exact kvKeyed_kvUpdate h5 (hkcfo a ha).symm
    | found n =>
        simp only [phase2Step, hp]
        refine ⟨?_, h2, h3, h4, ?_, h6⟩
        · intro j hj
          exact h1 j (mem_keysOf_kvUpdate.1 hj)
        · exact kvKeyed_kvUpdate h5 (hkcfo a ha).symm
  · exact ⟨fun _ hj => hj, fun _ hj => hj, rfl, rfl, hkcfo, hkd⟩

/-- When no successful create-folder probe returns a nil node, phase 2
resolves a node for every surviving create-folder entry. -/
theorem phase2_nodes {P : Probes} {b : Batch}
    (hkcfo : kvKeyed b.createFolders)
    (hmiss : ∀ pth, P.source pth (some false) ≠ .missing) :
    kvNodes (phase2 P b).createFolders := by
  have hq := foldl_pres_rem
    (fun c rem =>
      ∀ p ∈ c.createFolders, p.2.node.isSome = true ∨ p.1 ∈ rem.map Prod.fst)
    (fun a => a.1 = a.2.key)
    (phase2Step P) b.createFolders b
    (by
      intro acc a rest hA hQ
      cases hp : createProbe P (some false) a.2.eventInfo with
      | err =>
          simp only [phase2Step, hp]
          intro p hp2
          obtain ⟨pm, pk⟩ := mem_kvErase.1 hp2
          rcases hQ p pm with hs | hr
          · exact Or.inl hs
          · simp only [List.map_cons, List.mem_cons] at hr
            rcases hr with he | hr
            · exact absurd (he.trans hA) pk
            · exact Or.inr hr
      | missing => exact absurd (createProbe_eq_missing hp) (hmiss a.2.eventInfo.path)
      | found n =>
          simp only [phase2Step, hp]
          intro p hp2
          rcases mem_kvUpdate hp2 with ⟨pm, pk⟩ | ⟨_, pv⟩
          · rcases hQ p pm with hs | hr
            · exact Or.inl hs
            · simp only [List.map_cons, List.mem_cons] at hr
              rcases hr with he | hr
              · exact absurd he pk
              · exact Or.inr hr
          · rw [pv]
            exact Or.inl rfl)
    (fun a ha => hkcfo a ha)
    (by
      intro p hp
      exact Or.inr (List.mem_map.2 ⟨p, hp, rfl⟩))
  intro p hp
  rcases hq p hp with hs | hr
  · exact hs
  · simp at hr

/-! ### Phase 3, 4, 5 and pruning lemmas -/

theorem memKeys_ite_erase {j k : String} {c : Prop} [Decidable c] {m : KV}
    (h : memKeys j (if c then kvErase k m else m)) : memKeys j m := by
  by_cases hc : c
  · rw [if_pos hc] at h
    exact (mem_keysOf_kvErase.1 h).1
  · rwa [if_neg hc] at h

theorem kvKeyed_ite_erase {k : String} {c : Prop} [Decidable c] {m : KV}
    (h : kvKeyed m) : kvKeyed (if c then kvErase k m else m) := by
  by_cases hc : c
  · rw [if_pos hc]
    exact kvKeyed_kvErase h
  · rwa [if_neg hc]

theorem kvNodes_ite_erase {k : String} {c : Prop} [Decidable c] {m : KV}
    (h : kvNodes m) : kvNodes (if c then kvErase k m else m) := by
  by_cases hc : c
  · rw [if_pos hc]
    exact kvNodes_kvErase h
  · rwa [if_neg hc]

/-- The folder move detector only shrinks the create-folder and delete key
sets, leaves the create-file collection untouched, and preserves keyedness. -/
theorem detectFolderMoves_props (P : Probes) {b : Batch}
    (hkcfo : kvKeyed b.createFolders) (hkd : kvKeyed b.deletes) :
    (∀ j, memKeys j (detectFolderMoves P b).createFolders → memKeys j b.createFolders) ∧
    (∀ j, memKeys j (detectFolderMoves P b).deletes → memKeys j b.deletes) ∧
    (detectFolderMoves P b).createFiles = b.createFiles ∧
    kvKeyed (detectFolderMoves P b).createFolders ∧
    kvKeyed (detectFolderMoves P b).deletes := by
  apply foldl_pres
    (fun c =>
      (∀ j, memKeys j c.createFolders → memKeys j b.createFolders) ∧
      (∀ j, memKeys j c.deletes → memKeys j b.deletes) ∧
      c.createFiles = b.createFiles ∧
      kvKeyed c.createFolders ∧ kvKeyed c.deletes)
    (folderMoveStep P) b.deletes b
  · intro acc a _ hQ
    obtain ⟨h1, h2, h3, h4, h5⟩ := hQ
    cases ht : resultNode (P.target a.2.eventInfo.path) with
    | none =>
        simp only [folderMoveStep, ht]
        exact ⟨h1, h2, h3, h4, h5⟩
    | some n =>
        by_cases hl : n.leaf = true
        · simp only [folderMoveStep, ht, if_pos hl]
          exact ⟨h1, h2, h3, h4, h5⟩
        · cases hf : acc.createFolders.filter
              (fun c => decide (c.2.node.map Node.uuid = some n.uuid)) with
          | nil =>
              simp only [folderMoveStep, ht, if_neg hl, hf]
              exact ⟨h1, h2, h3, h4, h5⟩
          | cons cf t =>
              cases t with
              | nil =>
                  simp only [folderMoveStep, ht, if_neg hl, hf]
                  refine ⟨?_, ?_, h3, kvKeyed_kvErase h4, kvKeyed_kvErase h5⟩
                  · intro j hj
                    exact h1 j (mem_keysOf_kvErase.1 hj).1
                  · intro j hj
                    exact h2 j (mem_keysOf_kvErase.1 hj).1
              | cons c2 t2 =>
                  simp only [folderMoveStep, ht, if_neg hl, hf]
                  exact ⟨h1, h2, h3, h4, h5⟩
  · exact ⟨fun _ hj => hj, fun _ hj => hj, rfl, hkcfo, hkd⟩

/-- The folder move detector preserves resolved nodes: the create-folder
collection only loses entries and every move it records carries the loaded
target node. -/
theorem detectFolderMoves_nodes (P : Probes) {b : Batch}
    (h4 : kvNodes b.createFolders) (h5 : kvNodes b.fileMoves) :
    kvNodes (detectFolderMoves P b).createFolders ∧
    kvNodes (detectFolderMoves P b).fileMoves := by
  apply foldl_pres
    (fun c => kvNodes c.createFolders ∧ kvNodes c.fileMoves)
    (folderMoveStep P) b.deletes b
  · intro acc a _ hQ
    obtain ⟨q4, q5⟩ := hQ
    cases ht : resultNode (P.target a.2.eventInfo.path) with
    | none =>
        simp only [folderMoveStep, ht]
        exact ⟨q4, q5⟩
    | some n =>
        by_cases hl : n.leaf = true
        · simp only [folderMoveStep, ht, if_pos hl]
          exact ⟨q4, q5⟩
        · cases hf : acc.createFolders.filter
              (fun c => decide (c.2.node.map Node.uuid = some n.uuid)) with
          | nil =>
              simp only [folderMoveStep, ht, if_neg hl, hf]
              exact ⟨q4, q5⟩
          | cons cf t =>
              cases t with
              | nil =>
                  simp only [folderMoveStep, ht, if_neg hl, hf]
                  exact ⟨kvNodes_kvErase q4, kvNodes_kvUpsert q5 rfl⟩
              | cons c2 t2 =>
                  simp only [folderMoveStep, ht, if_neg hl, hf]
                  exact ⟨q4, q5⟩
  · exact ⟨h4, h5⟩

/-- Phase 4 only shrinks the create-file, create-folder and delete key sets
and preserves keyedness. -/
theorem phase4_props (P : Probes) {b : Batch}
    (hkcf : kvKeyed b.createFiles) (hkcfo : kvKeyed b.createFolders)
    (hkd : kvKeyed b.deletes) :
    (∀ j, memKeys j (phase4 P b).1.createFiles → memKeys j b.createFiles) ∧
    (∀ j, memKeys j (phase4 P b).1.createFolders → memKeys j b.createFolders) ∧
    (∀ j, memKeys j (phase4 P b).1.deletes → memKeys j b.deletes) ∧
    kvKeyed (phase4 P b).1.createFiles ∧ kvKeyed (phase4 P b).1.createFolders ∧
    kvKeyed (phase4 P b).1.deletes := by
  apply foldl_pres
    (fun st : Batch × List Move =>
      (∀ j, memKeys j st.1.createFiles → memKeys j b.createFiles) ∧
      (∀ j, memKeys j st.1.createFolders → memKeys j b.createFolders) ∧
      (∀ j, memKeys j st.1.deletes → memKeys j b.deletes) ∧
      kvKeyed st.1.createFiles ∧ kvKeyed st.1.createFolders ∧ kvKeyed st.1.deletes)
    (phase4Step P) b.deletes (b, [])
  · intro acc a ha hQ
    obtain ⟨h1, h2, h3, h4, h5, h6⟩ := hQ
    have hA : a.1 = a.2.key := hkd a ha
    cases hr : resolveDelete P a.2 with
    | some n =>
        have hup : kvKeyed (kvUpdate a.1 { a.2 with node := some n } acc.1.deletes) :=
          kvKeyed_kvUpdate h6 hA.symm
        have hupm : ∀ j, memKeys j (kvUpdate a.1 { a.2 with node := some n } acc.1.deletes) →
            memKeys j b.deletes := fun j hj => h3 j (mem_keysOf_kvUpdate.1 hj)
        by_cases hl : n.leaf = true
        · cases hm : findUuidMatch n.uuid acc.1.createFiles with
          | some cf =>
              simp only [phase4Step, hr, phase4Found, if_pos hl, hm]
              refine ⟨?_, h2, ?_, kvKeyed_kvErase h4, h5, kvKeyed_kvErase hup⟩
              · intro j hj
                exact h1 j (mem_keysOf_kvErase.1 hj).1
              · intro j hj
                exact hupm j (mem_keysOf_kvErase.1 hj).1
          | none =>
              simp only [phase4Step, hr, phase4Found, if_pos hl, hm]
              exact ⟨h1, h2, hupm, h4, h5, hup⟩
        · simp only [phase4Step, hr, phase4Found, if_neg hl]
          exact ⟨h1, h2, hupm, h4, h5, hup⟩
    | none =>
        by_cases hc : (kvLookup a.2.key acc.1.createFiles).isSome = true ∨
            (kvLookup a.2.key acc.1.createFolders).isSome = true
        · cases hs : resultNode (P.source a.2.eventInfo.path
              (some (kvLookup a.2.key acc.1.createFiles).isSome)) with
          | none =>
              simp only [phase4Step, hr, phase4None, if_pos hc, hs]
              refine ⟨?_, ?_, ?_, kvKeyed_ite_erase h4, kvKeyed_ite_erase h5,
                kvKeyed_kvErase h6⟩
              · intro j hj
                exact h1 j (memKeys_ite_erase hj)
              · intro j hj
                exact h2 j (memKeys_ite_erase hj)
              · intro j hj
                exact h3 j (mem_keysOf_kvErase.1 hj).1
          | some n =>
              simp only [phase4Step, hr, phase4None, if_pos hc, hs]
              refine ⟨h1, h2, ?_, h4, h5, kvKeyed_kvErase h6⟩
              intro j hj
              exact h3 j (mem_keysOf_kvErase.1 hj).1
        · simp only [phase4Step, hr, phase4None, if_neg hc]
          refine ⟨h1, h2, ?_, h4, h5, kvKeyed_kvErase h6⟩
          intro j hj
          exact h3 j (mem_keysOf_kvErase.1 hj).1
  · exact ⟨fun _ hj => hj, fun _ hj => hj, fun _ hj => hj, hkcf, hkcfo, hkd⟩

/-- Phase 4 resolves a node for every surviving delete entry and preserves
resolved nodes in the other collections. -/
theorem phase4_nodes (P : Probes) {b : Batch}
    (hkd : kvKeyed b.deletes)
    (hcf : kvNodes b.createFiles) (hcfo : kvNodes b.createFolders)
    (hfm : kvNodes b.fileMoves) :
    kvNodes (phase4 P b).1.deletes ∧ kvNodes (phase4 P b).1.createFiles ∧
    kvNodes (phase4 P b).1.createFolders ∧ kvNodes (phase4 P b).1.fileMoves := by
  have hq := foldl_pres_rem
    (fun (st : Batch × List Move) rem =>
      (∀ p ∈ st.1.deletes, p.2.node.isSome = true ∨ p.1 ∈ rem.map Prod.fst) ∧
      kvNodes st.1.createFiles ∧ kvNodes st.1.createFolders ∧ kvNodes st.1.fileMoves)
    (fun a => a.1 = a.2.key)
    (phase4Step P) b.deletes (b, [])
    (by
      intro acc a rest hA hQ
      obtain ⟨q1, q2, q3, q4⟩ := hQ
      cases hr : resolveDelete P a.2 with
      | some n =>
          have hup : ∀ p ∈ kvUpdate a.1 { a.2 with node := some n } acc.1.deletes,
              p.2.node.isSome = true ∨ p.1 ∈ rest.map Prod.fst := by
            intro p hp
            rcases mem_kvUpdate hp with ⟨pm, pk⟩ | ⟨pe, pv⟩
            · rcases q1 p pm with hs | hrr
              · exact Or.inl hs
              · simp only [List.map_cons, List.mem_cons] at hrr
                rcases hrr with he | hrr
                · exact absurd he pk
                · exact Or.inr hrr
            · rw [pv]
              exact Or.inl rfl
          by_cases hl : n.leaf = true
          · cases hm : findUuidMatch n.uuid acc.1.createFiles with
            | some cf =>
                simp only [phase4Step, hr, phase4Found, if_pos hl, hm]
                refine ⟨?_, kvNodes_kvErase q2, q3, kvNodes_kvUpsert q4 rfl⟩
                intro p hp
                obtain ⟨pm, _⟩ := mem_kvErase.1 hp
                exact hup p pm
            | none =>
                simp only [phase4Step, hr, phase4Found, if_pos hl, hm]
                exact ⟨hup, q2, q3, q4⟩
          · simp only [phase4Step, hr, phase4Found, if_neg hl]
            exact ⟨hup, q2, q3, q4⟩
      | none =>
          by_cases hc : (kvLookup a.2.key acc.1.createFiles).isSome = true ∨
              (kvLookup a.2.key acc.1.createFolders).isSome = true
          · cases hs : resultNode (P.source a.2.eventInfo.path
                (some (kvLookup a.2.key acc.1.createFiles).isSome)) with
            | none =>
                simp only [phase4Step, hr, phase4None, if_pos hc, hs]
                refine ⟨?_, kvNodes_ite_erase q2, kvNodes_ite_erase q3, q4⟩
                intro p hp
                obtain ⟨pm, pk⟩ := mem_kvErase.1 hp
                rcases q1 p pm with hss | hrr
                · exact Or.inl hss
                · simp only [List.map_cons, List.mem_cons] at hrr
                  rcases hrr with he | hrr
                  · exact absurd (he.trans hA) pk
                  · exact Or.inr hrr
            | some n =>
                simp only [phase4Step, hr, phase4None, if_pos hc, hs]
                refine ⟨?_, q2, q3, q4⟩
                intro p hp
                obtain ⟨pm, pk⟩ := mem_kvErase.1 hp
                rcases q1 p pm with hss | hrr
                · exact Or.inl hss
                · simp only [List.map_cons, List.mem_cons] at hrr
                  rcases hrr with he | hrr
                  · exact absurd (he.trans hA) pk
                  · exact Or.inr hrr
          · simp only [phase4Step, hr, phase4None, if_neg hc]
            refine ⟨?_, q2, q3, q4⟩
            intro p hp
            obtain ⟨pm, pk⟩ := mem_kvErase.1 hp
            rcases q1 p pm with hss | hrr
            · exact Or.inl hss
            · simp only [List.map_cons, List.mem_cons] at hrr
              rcases hrr with he | hrr
              · exact absurd (he.trans hA) pk
              · exact Or.inr hrr)
    (fun a ha => hkd a ha)
    (by
      refine ⟨?_, hcf, hcfo, hfm⟩
      intro p hp
      exact Or.inr (List.mem_map.2 ⟨p, hp, rfl⟩))
  obtain ⟨q1, q2, q3, q4⟩ := hq
  refine ⟨?_, q2, q3, q4⟩
  intro p hp
  rcases q1 p hp with hs | hrr
  · exact hs
  · simp at hrr

/-! ### Phase 5 and pruning lemmas -/

theorem mem_insertLE {x y : Move} {l : List Move} : x ∈ insertLE y l ↔ x = y ∨ x ∈ l := by
  induction l with
  | nil => simp [insertLE]
  | cons a t ih =>
      by_cases h : moveLE y a = true
      · simp [insertLE, if_pos h]
      · simp only [insertLE, if_neg h, List.mem_cons, ih]
        tauto

theorem mem_sortMoves {x : Move} {l : List Move} :
    x ∈ sortMoves l ↔ x ∈ l := by
  unfold sortMoves
  induction l with
  | nil => simp
  | cons a t ih =>
      simp only [List.foldr_cons, mem_insertLE, List.mem_cons, ih]

theorem mem_of_pickMoves {x : Move} : ∀ {ds cs : List String} {l : List Move},
    x ∈ pickMoves ds cs l → x ∈ l := by
  intro ds cs l
  induction l generalizing ds cs with
  | nil => intro h; simp [pickMoves] at h
  | cons m rest ih =>
      intro h
      by_cases hc : m.deleteEvent.key ∈ ds ∨ m.createEvent.key ∈ cs
      · rw [pickMoves, if_pos hc] at h
        exact List.mem_cons_of_mem m (ih h)
      · rw [pickMoves, if_neg hc] at h
        rcases List.mem_cons.1 h with he | ht
        · exact he ▸ List.mem_cons_self m rest
        · exact List.mem_cons_of_mem m (ih ht)

theorem mem_of_sortClosestMoves {x : Move} {l : List Move}
    (h : x ∈ sortClosestMoves l) : x ∈ l :=
  mem_sortMoves.1 (mem_of_pickMoves h)

/-- Phase 5 only shrinks the create-file and delete key sets, leaves the
folder collection untouched, and preserves keyedness. -/
theorem phase5_props (cands : List Move) {b : Batch}
    (hkcf : kvKeyed b.createFiles) (hkd : kvKeyed b.deletes) :
    (∀ j, memKeys j (phase5 b cands).createFiles → memKeys j b.createFiles) ∧
    (∀ j, memKeys j (phase5 b cands).deletes → memKeys j b.deletes) ∧
    (phase5 b cands).createFolders = b.createFolders ∧
    kvKeyed (phase5 b cands).createFiles ∧ kvKeyed (phase5 b cands).deletes := by
  apply foldl_pres
    (fun c =>
      (∀ j, memKeys j c.createFiles → memKeys j b.createFiles) ∧
      (∀ j, memKeys j c.deletes → memKeys j b.deletes) ∧
      c.createFolders = b.createFolders ∧
      kvKeyed c.createFiles ∧ kvKeyed c.deletes)
    commitMove (sortClosestMoves cands) b
  · intro acc m _ hQ
    obtain ⟨h1, h2, h3, h4, h5⟩ := hQ
    refine ⟨?_, ?_, h3, kvKeyed_kvErase h4, kvKeyed_kvErase h5⟩
    · intro j hj
      exact h1 j (mem_keysOf_kvErase.1 hj).1
    · intro j hj
      exact h2 j (mem_keysOf_kvErase.1 hj).1
  · exact ⟨fun _ hj => hj, fun _ hj => hj, rfl, hkcf, hkd⟩

/-- Phase 5 preserves resolved nodes, and every move it commits carries its
candidate target node. -/
theorem phase5_nodes (cands : List Move) {b : Batch}
    (hcf : kvNodes b.createFiles) (hd : kvNodes b.deletes)
    (hfm : kvNodes b.fileMoves) :
    kvNodes (phase5 b cands).createFiles ∧ kvNodes (phase5 b cands).deletes ∧
    kvNodes (phase5 b cands).fileMoves := by
  apply foldl_pres
    (fun c => kvNodes c.createFiles ∧ kvNodes c.deletes ∧ kvNodes c.fileMoves)
    commitMove (sortClosestMoves cands) b
  · intro acc m _ hQ
    obtain ⟨h1, h2, h3⟩ := hQ
    exact ⟨kvNodes_kvErase h1, kvNodes_kvErase h2, kvNodes_kvUpsert h3 rfl⟩
  · exact ⟨hcf, hd, hfm⟩

theorem pruneDeletes_sub {ds ds2 : KV} (h : pruneDeletes ds = some ds2) :
    ∀ p ∈ ds2, p ∈ ds := by
  unfold pruneDeletes at h
  by_cases hc : ds.all (fun p => p.2.node.isSome) = true
  · rw [if_pos hc, Option.some.injEq] at h
    subst h
    intro p hp
    exact (List.mem_filter.1 hp).1
  · rw [if_neg hc] at h
    cases h

theorem kvNodes_sub {m2 m : KV} (hsub : ∀ p ∈ m2, p ∈ m) (h : kvNodes m) : kvNodes m2 :=
  fun p hp => h p (hsub p hp)

theorem kvKeyed_sub {m2 m : KV} (hsub : ∀ p ∈ m2, p ∈ m) (h : kvKeyed m) : kvKeyed m2 :=
  fun p hp => h p (hsub p hp)

theorem memKeys_sub {m2 m : KV} (hsub : ∀ p ∈ m2, p ∈ m) {j : String}
    (h : memKeys j m2) : memKeys j m := by
  rcases mem_keysOf.1 h with ⟨p, hp, he⟩
  exact mem_keysOf.2 ⟨p, hsub p hp, he⟩

/-! ### FilterBatch-level composition -/

/-- Unpacking a successful `FilterBatch` run. -/
theorem FilterBatch_unfold {P : Probes} {b bf : Batch} (h : FilterBatch P b = some bf) :
    ∃ b1 ds, phase1 P b = some b1 ∧
      pruneDeletes (postPhase1 P b1).deletes = some ds ∧
      bf = { postPhase1 P b1 with deletes := ds } := by
  unfold FilterBatch at h
  cases h1 : phase1 P b with
  | none =>
      rw [h1] at h
      cases h
  | some b1 =>
      rw [h1] at h
      simp only [Option.some_bind] at h
      rcases Option.map_eq_some'.1 h with ⟨ds, hds, hbf⟩
      exact ⟨b1, ds, rfl, hds, hbf.symm⟩

/-! ### Population lemmas -/

/-- Basic shape of a batch built by `ProcessEvents`: each entry stored under
its key, no moves, and every key is an event path. -/
theorem populate_basic (es : List EventInfo) :
    kvKeyed (populateBatch es).createFiles ∧ kvKeyed (populateBatch es).createFolders ∧
    kvKeyed (populateBatch es).deletes ∧ (populateBatch es).fileMoves = [] ∧
    (∀ j, memKeys j (populateBatch es).createFiles → j ∈ es.map EventInfo.path) ∧
    (∀ j, memKeys j (populateBatch es).createFolders → j ∈ es.map EventInfo.path) ∧
    (∀ j, memKeys j (populateBatch es).deletes → j ∈ es.map EventInfo.path) := by
  apply foldl_pres
    (fun c =>
      kvKeyed c.createFiles ∧ kvKeyed c.createFolders ∧ kvKeyed c.deletes ∧
      c.fileMoves = [] ∧
      (∀ j, memKeys j c.createFiles → j ∈ es.map EventInfo.path) ∧
      (∀ j, memKeys j c.createFolders → j ∈ es.map EventInfo.path) ∧
      (∀ j, memKeys j c.deletes → j ∈ es.map EventInfo.path))
    populateStep es NewBatch
  · intro acc e he hQ
    obtain ⟨h1, h2, h3, h4, h5, h6, h7⟩ := hQ
    have hpe : e.path ∈ es.map EventInfo.path := List.mem_map.2 ⟨e, he, rfl⟩
    by_cases ht : e.type = EventType.create ∨ e.type = EventType.rename
    · by_cases hf : e.folder = true
      · simp only [populateStep, if_pos ht, if_pos hf]
        refine ⟨h1, kvKeyed_kvUpsert h2 rfl, h3, h4, h5, ?_, h7⟩
        intro j hj
        rcases mem_keysOf_kvUpsert.1 hj with ⟨hm, _⟩ | rfl
        · exact h6 j hm
        · exact hpe
      · simp only [populateStep, if_pos ht, if_neg hf]
        refine ⟨kvKeyed_kvUpsert h1 rfl, h2, h3, h4, ?_, h6, h7⟩
        intro j hj
        rcases mem_keysOf_kvUpsert.1 hj with ⟨hm, _⟩ | rfl
        · exact h5 j hm
        · exact hpe
    · simp only [populateStep, if_neg ht]
      refine ⟨h1, h2, kvKeyed_kvUpsert h3 rfl, h4, h5, h6, ?_⟩
      intro j hj
      rcases mem_keysOf_kvUpsert.1 hj with ⟨hm, _⟩ | rfl
      · exact h7 j hm
      · exact hpe
  · refine ⟨?_, ?_, ?_, rfl, ?_, ?_, ?_⟩ <;> (intro x hx; cases hx)

/-- With pairwise distinct event paths, the populated collections have
pairwise disjoint key sets. -/
theorem populate_sep :
    ∀ es : List EventInfo, (es.map EventInfo.path).Nodup →
      (∀ k, memKeys k (populateBatch es).createFiles →
        ¬ memKeys k (populateBatch es).createFolders ∧
        ¬ memKeys k (populateBatch es).deletes) ∧
      (∀ k, memKeys k (populateBatch es).createFolders →
        ¬ memKeys k (populateBatch es).deletes) := by
  intro es
  induction es using List.reverseRecOn with
  | nil =>
      intro _
      constructor
      · intro k hk
        cases hk
      · intro k hk
        cases hk
  | append_singleton t e ih =>
      intro hnd
      rw [List.map_append, List.nodup_append] at hnd
      obtain ⟨hnd1, _, hdisj⟩ := hnd
      have hnp : e.path ∉ t.map EventInfo.path := by
        intro hmem
        exact hdisj hmem (by simp)
      obtain ⟨s1, s2⟩ := ih hnd1
      obtain ⟨_, _, _, _, b5, b6, b7⟩ := populate_basic t
      have hstep : populateBatch (t ++ [e]) = populateStep (populateBatch t) e := by
        unfold populateBatch
        rw [List.foldl_append]
        rfl
      rw [hstep]
      by_cases ht : e.type = EventType.create ∨ e.type = EventType.rename
      · by_cases hf : e.folder = true
        · simp only [populateStep, if_pos ht, if_pos hf]
          constructor
          · intro k hk
            refine ⟨?_, (s1 k hk).2⟩
            intro hk2
            rcases mem_keysOf_kvUpsert.1 hk2 with ⟨hm, _⟩ | rfl
            · exact (s1 k hk).1 hm
            · exact hnp (b5 _ hk)
          · intro k hk
            rcases mem_keysOf_kvUpsert.1 hk with ⟨hm, _⟩ | rfl
            · exact s2 k hm
            · intro hk2
              exact hnp (b7 _ hk2)
        · simp only [populateStep, if_pos ht, if_neg hf]
          constructor
          · intro k hk
            rcases mem_keysOf_kvUpsert.1 hk with ⟨hm, _⟩ | rfl
            · exact s1 k hm
            · constructor
              · intro hk2
                exact hnp (b6 _ hk2)
              · intro hk2
                exact hnp (b7 _ hk2)
          · exact s2
      · simp only [populateStep, if_neg ht]
        constructor
        · intro k hk
          refine ⟨(s1 k hk).1, ?_⟩
          intro hk2
          rcases mem_keysOf_kvUpsert.1 hk2 with ⟨hm, _⟩ | rfl
          · exact (s1 k hk).2 hm
          · exact hnp (b5 _ hk)
        · intro k hk
          intro hk2
          rcases mem_keysOf_kvUpsert.1 hk2 with ⟨hm, _⟩ | rfl
          · exact s2 k hk hm
          · exact hnp (b6 _ hk)

/-! ### FilterBatch-level composition -/

/-- Key monotonicity of the whole filter: no key ever enters `CreateFiles`
or `Deletes` during filtering. -/
theorem FilterBatch_mono {P : Probes} {b bf : Batch}
    (hkcf : kvKeyed b.createFiles) (hkcfo : kvKeyed b.createFolders)
    (hkd : kvKeyed b.deletes) (h : FilterBatch P b = some bf) :
    (∀ j, memKeys j bf.createFiles → memKeys j b.createFiles) ∧
    (∀ j, memKeys j bf.deletes → memKeys j b.deletes) ∧
    (∀ j, memKeys j bf.createFolders → memKeys j b.createFolders) := by
  obtain ⟨b1, ds, h1, hds, hbf⟩ := FilterBatch_unfold h
  obtain ⟨p1cf, p1d, p1cfo, _, p1kcf, p1kd⟩ := phase1_props hkcf hkd h1
  have hkcfo1 : kvKeyed b1.createFolders := by
    rw [p1cfo]
    exact hkcfo
  obtain ⟨p2cfo, p2d, p2cf, _, p2kcfo, p2kd⟩ := phase2_props P hkcfo1 p1kd
  have hkcf2 : kvKeyed (phase2 P b1).createFiles := by
    rw [p2cf]
    exact p1kcf
  obtain ⟨p3cfo, p3d, p3cf, p3kcfo, p3kd⟩ := detectFolderMoves_props P p2kcfo p2kd
  have hkcf3 : kvKeyed (detectFolderMoves P (phase2 P b1)).createFiles := by
    rw [p3cf]
    exact hkcf2
  obtain ⟨p4cf, p4cfo, p4d, p4kcf, p4kcfo, p4kd⟩ := phase4_props P hkcf3 p3kcfo p3kd
  obtain ⟨p5cf, p5d, p5cfo, p5kcf, p5kd⟩ :=
    phase5_props (phase4 P (detectFolderMoves P (phase2 P b1))).2 p4kcf p4kd
  refine ⟨?_, ?_, ?_⟩
  · intro j hj
    have hj1 : memKeys j (postPhase1 P b1).createFiles := by
      rw [hbf] at hj
      exact hj
    have hj2 := p5cf j hj1
    have hj3 := p4cf j hj2
    rw [p3cf, p2cf] at hj3
    exact p1cf j hj3
  · intro j hj
    have hj1 : memKeys j ds := by
      rw [hbf] at hj
      exact hj
    have hj2 : memKeys j (postPhase1 P b1).deletes := memKeys_sub (pruneDeletes_sub hds) hj1
    have hj3 := p5d j hj2
    have hj4 := p4d j hj3
    have hj5 := p3d j hj4
    have hj6 := p2d j hj5
    exact p1d j hj6
  · intro j hj
    have hj1 : memKeys j (phase5 (phase4 P (detectFolderMoves P (phase2 P b1))).1
        (phase4 P (detectFolderMoves P (phase2 P b1))).2).createFolders := by
      rw [hbf] at hj
      exact hj
    rw [p5cfo] at hj1
    have hj2 := p4cfo j hj1
    have hj3 := p3cfo j hj2
    have hj4 := p2cfo j hj3
    rw [p1cfo] at hj4
    exact hj4

/-- Node completeness of the whole filter provided no successful create-folder
probe returns a nil node. -/
theorem FilterBatch_nodes {P : Probes} {b bf : Batch}
    (hkcf : kvKeyed b.createFiles) (hkcfo : kvKeyed b.createFolders)
    (hkd : kvKeyed b.deletes) (hfm0 : b.fileMoves = [])
    (hmiss : ∀ pth, P.source pth (some false) ≠ .missing)
    (h : FilterBatch P b = some bf) :
    kvNodes bf.createFiles ∧ kvNodes bf.createFolders ∧
    kvNodes bf.fileMoves ∧ kvNodes bf.deletes := by
  obtain ⟨b1, ds, h1, hds, hbf⟩ := FilterBatch_unfold h
  obtain ⟨p1cf, p1d, p1cfo, p1fm, p1kcf, p1kd⟩ := phase1_props hkcf hkd h1
  have hkcfo1 : kvKeyed b1.createFolders := by
    rw [p1cfo]
    exact hkcfo
  obtain ⟨p2cfo, p2d, p2cf, p2fm, p2kcfo, p2kd⟩ := phase2_props P hkcfo1 p1kd
  have hkcf2 : kvKeyed (phase2 P b1).createFiles := by
    rw [p2cf]
    exact p1kcf
  obtain ⟨p3cfo, p3d, p3cf, p3kcfo, p3kd⟩ := detectFolderMoves_props P p2kcfo p2kd
  have hkcf3 : kvKeyed (detectFolderMoves P (phase2 P b1)).createFiles := by
    rw [p3cf]
    exact hkcf2
  -- node facts entering phase 3
  have ncf1 : kvNodes b1.createFiles := phase1_nodes hkcf h1
  have ncf2 : kvNodes (phase2 P b1).createFiles := by
    rw [p2cf]
    exact ncf1
  have ncfo2 : kvNodes (phase2 P b1).createFolders := phase2_nodes hkcfo1 hmiss
  have nfm2 : kvNodes (phase2 P b1).fileMoves := by
    rw [p2fm, p1fm, hfm0]
    intro p hp
    cases hp
  obtain ⟨ncfo3, nfm3⟩ := detectFolderMoves_nodes P ncfo2 nfm2
  have ncf3 : kvNodes (detectFolderMoves P (phase2 P b1)).createFiles := by
    rw [p3cf]
    exact ncf2
  obtain ⟨nd4, ncf4, ncfo4, nfm4⟩ := phase4_nodes P p3kd ncf3 ncfo3 nfm3
  obtain ⟨ncf5, nd5, nfm5⟩ :=
    phase5_nodes (phase4 P (detectFolderMoves P (phase2 P b1))).2 ncf4 nd4 nfm4
  obtain ⟨_, _, p5cfo, _, _⟩ :=
    phase5_props (phase4 P (detectFolderMoves P (phase2 P b1))).2
      (phase4_props P hkcf3 p3kcfo p3kd).2.2.2.1
      (phase4_props P hkcf3 p3kcfo p3kd).2.2.2.2.2
  have ncfo5 : kvNodes (postPhase1 P b1).createFolders := by
    have : (postPhase1 P b1).createFolders =
        (phase4 P (detectFolderMoves P (phase2 P b1))).1.createFolders := p5cfo
    rw [this]
    exact ncfo4
  have hnds : kvNodes ds :=
    kvNodes_sub (pruneDeletes_sub hds) nd5
  rw [hbf]
  exact ⟨ncf5, ncfo5, nfm5, hnds⟩

/-! ### Disjointness machinery -/

/-- Pairwise key disjointness of the four collections (invariant B1). -/
def BatchKeysDisjoint (b : Batch) : Prop :=
  ∀ k,
    (memKeys k b.createFiles →
      ¬ memKeys k b.createFolders ∧ ¬ memKeys k b.deletes ∧ ¬ memKeys k b.fileMoves) ∧
    (memKeys k b.createFolders → ¬ memKeys k b.deletes ∧ ¬ memKeys k b.fileMoves) ∧
    (memKeys k b.deletes → ¬ memKeys k b.fileMoves)

/-- Pairwise disjointness of three reference key sets. -/
def KeysSep (Kcf Kcfo Kd : List String) : Prop :=
  (∀ k ∈ Kcf, k ∉ Kcfo ∧ k ∉ Kd) ∧ (∀ k ∈ Kcfo, k ∉ Kd)

/-- The invariant carried through phases 3, 4 and 5: the three input-side
collections keep their keys inside the reference sets, every move key is
absent from the other collections, and all collections stay keyed. -/
structure DisjInv (Kcf Kcfo Kd : List String) (b : Batch) : Prop where
  cf : ∀ j, memKeys j b.createFiles → j ∈ Kcf
  cfo : ∀ j, memKeys j b.createFolders → j ∈ Kcfo
  del : ∀ j, memKeys j b.deletes → j ∈ Kd
  fm : ∀ j, memKeys j b.fileMoves →
    ¬ memKeys j b.createFiles ∧ ¬ memKeys j b.createFolders ∧ ¬ memKeys j b.deletes
  kcf : kvKeyed b.createFiles
  kcfo : kvKeyed b.createFolders
  kdel : kvKeyed b.deletes

/-- The folder move detector preserves the disjointness invariant. -/
theorem detectFolderMoves_inv (P : Probes) {Kcf Kcfo Kd : List String}
    (hsep : KeysSep Kcf Kcfo Kd) {b : Batch} (hI : DisjInv Kcf Kcfo Kd b) :
    DisjInv Kcf Kcfo Kd (detectFolderMoves P b) := by
  apply foldl_pres (DisjInv Kcf Kcfo Kd) (folderMoveStep P) b.deletes b
  · intro acc a _ hQ
    cases ht : resultNode (P.target a.2.eventInfo.path) with
    | none =>
        simp only [folderMoveStep, ht]
        exact hQ
    | some n =>
        by_cases hl : n.leaf = true
        · simp only [folderMoveStep, ht, if_pos hl]
          exact hQ
        · cases hf : acc.createFolders.filter
              (fun c => decide (c.2.node.map Node.uuid = some n.uuid)) with
          | nil =>
              simp only [folderMoveStep, ht, if_neg hl, hf]
              exact hQ
          | cons cf t =>
              cases t with
              | nil =>
                  simp only [folderMoveStep, ht, if_neg hl, hf]
                  have hcfm : cf ∈ acc.createFolders := by
                    have : cf ∈ acc.createFolders.filter
                        (fun c => decide (c.2.node.map Node.uuid = some n.uuid)) := by
                      rw [hf]
                      exact List.mem_cons_self _ _
                    exact List.mem_of_mem_filter this
                  have hkc : cf.2.key ∈ Kcfo := by
                    have h1 : cf.1 = cf.2.key := hQ.kcfo cf hcfm
                    have h2 : memKeys cf.1 acc.createFolders :=
                      List.mem_map.2 ⟨cf, hcfm, rfl⟩
                    rw [h1] at h2
                    exact hQ.cfo _ h2
                  refine ⟨hQ.cf, ?_, ?_, ?_, hQ.kcf, kvKeyed_kvErase hQ.kcfo,
                    kvKeyed_kvErase hQ.kdel⟩
                  · intro j hj
                    exact hQ.cfo j (mem_keysOf_kvErase.1 hj).1
                  · intro j hj
                    exact hQ.del j (mem_keysOf_kvErase.1 hj).1
                  · intro j hj
                    rcases mem_keysOf_kvUpsert.1 hj with ⟨hm, _⟩ | rfl
                    · obtain ⟨f1, f2, f3⟩ := hQ.fm j hm
                      refine ⟨f1, ?_, ?_⟩
                      · intro hj2
                        exact f2 (mem_keysOf_kvErase.1 hj2).1
                      · intro hj2
                        exact f3 (mem_keysOf_kvErase.1 hj2).1
                    · refine ⟨?_, ?_, ?_⟩
                      · intro hj2
                        exact (hsep.1 _ (hQ.cf _ hj2)).1 hkc
                      · intro hj2
                        exact absurd rfl (mem_keysOf_kvErase.1 hj2).2
                      · intro hj2
                        exact hsep.2 _ hkc (hQ.del _ (mem_keysOf_kvErase.1 hj2).1)
              | cons c2 t2 =>
                  simp only [folderMoveStep, ht, if_neg hl, hf]
                  exact hQ
  · exact hI

/-- Phase 4 preserves the disjointness invariant, and every recorded
candidate move has a create key drawn from the create-file key set. -/
theorem phase4_inv (P : Probes) {Kcf Kcfo Kd : List String}
    (hsep : KeysSep Kcf Kcfo Kd) {b : Batch} (hI : DisjInv Kcf Kcfo Kd b) :
    DisjInv Kcf Kcfo Kd (phase4 P b).1 ∧
    ∀ m ∈ (phase4 P b).2, m.createEvent.key ∈ Kcf := by
  apply foldl_pres
    (fun st : Batch × List Move =>
      DisjInv Kcf Kcfo Kd st.1 ∧ ∀ m ∈ st.2, m.createEvent.key ∈ Kcf)
    (phase4Step P) b.deletes (b, [])
  · intro acc a ha hQ
    obtain ⟨hD, hC⟩ := hQ
    have hA : a.1 = a.2.key := hI.kdel a ha
    cases hr : resolveDelete P a.2 with
    | some n =>
        have hDup : DisjInv Kcf Kcfo Kd
            { acc.1 with deletes := kvUpdate a.1 { a.2 with node := some n } acc.1.deletes } := by
          refine ⟨hD.cf, hD.cfo, ?_, ?_, hD.kcf, hD.kcfo,
            kvKeyed_kvUpdate hD.kdel hA.symm⟩
          · intro j hj
            exact hD.del j (mem_keysOf_kvUpdate.1 hj)
          · intro j hj
            obtain ⟨f1, f2, f3⟩ := hD.fm j hj
            exact ⟨f1, f2, fun hj2 => f3 (mem_keysOf_kvUpdate.1 hj2)⟩
        by_cases hl : n.leaf = true
        · cases hm : findUuidMatch n.uuid acc.1.createFiles with
          | some cf =>
              simp only [phase4Step, hr, phase4Found, if_pos hl, hm]
              have hcfm : cf ∈ acc.1.createFiles := List.mem_of_find?_eq_some hm
              have hkc : cf.2.key ∈ Kcf := by
                have h1 : cf.1 = cf.2.key := hD.kcf cf hcfm
                have h2 : memKeys cf.1 acc.1.createFiles :=
                  List.mem_map.2 ⟨cf, hcfm, rfl⟩
                rw [h1] at h2
                exact hD.cf _ h2
              refine ⟨⟨?_, hDup.cfo, ?_, ?_, kvKeyed_kvErase hDup.kcf, hDup.kcfo,
                kvKeyed_kvErase hDup.kdel⟩, hC⟩
              · intro j hj
                exact hDup.cf j (mem_keysOf_kvErase.1 hj).1
              · intro j hj
                exact hDup.del j (mem_keysOf_kvErase.1 hj).1
              · intro j hj
                rcases mem_keysOf_kvUpsert.1 hj with ⟨hm2, _⟩ | rfl
                · obtain ⟨f1, f2, f3⟩ := hDup.fm j hm2
                  refine ⟨?_, f2, ?_⟩
                  · intro hj2
                    exact f1 (mem_keysOf_kvErase.1 hj2).1
                  · intro hj2
                    exact f3 (mem_keysOf_kvErase.1 hj2).1
                · refine ⟨?_, ?_, ?_⟩
                  · intro hj2
                    exact absurd rfl (mem_keysOf_kvErase.1 hj2).2
                  · intro hj2
                    exact (hsep.1 _ hkc).1 (hDup.cfo _ hj2)
                  · intro hj2
                    exact (hsep.1 _ hkc).2 (hDup.del _ (mem_keysOf_kvErase.1 hj2).1)
          | none =>
              simp only [phase4Step, hr, phase4Found, if_pos hl, hm]
              refine ⟨hDup, ?_⟩
              intro m hmm
              rcases List.mem_append.1 hmm with hmo | hmn
              · exact hC m hmo
              · rcases List.mem_map.1 hmn with ⟨cf, hcf, he⟩
                have hcfm : cf ∈ acc.1.createFiles := List.mem_of_mem_filter hcf
                have h1 : cf.1 = cf.2.key := hD.kcf cf hcfm
                have h2 : memKeys cf.1 acc.1.createFiles :=
                  List.mem_map.2 ⟨cf, hcfm, rfl⟩
                rw [← he]
                rw [h1] at h2
                exact hD.cf _ h2
        · simp only [phase4Step, hr, phase4Found, if_neg hl]
          exact ⟨hDup, hC⟩
    | none =>
        have herase : ∀ (bb : Batch), DisjInv Kcf Kcfo Kd bb →
            DisjInv Kcf Kcfo Kd { bb with deletes := kvErase a.2.key bb.deletes } := by
          intro bb hbb
          refine ⟨hbb.cf, hbb.cfo, ?_, ?_, hbb.kcf, hbb.kcfo, kvKeyed_kvErase hbb.kdel⟩
          · intro j hj
            exact hbb.del j (mem_keysOf_kvErase.1 hj).1
          · intro j hj
            obtain ⟨f1, f2, f3⟩ := hbb.fm j hj
            exact ⟨f1, f2, fun hj2 => f3 (mem_keysOf_kvErase.1 hj2).1⟩
        by_cases hc : (kvLookup a.2.key acc.1.createFiles).isSome = true ∨
            (kvLookup a.2.key acc.1.createFolders).isSome = true
        · cases hs : resultNode (P.source a.2.eventInfo.path
              (some (kvLookup a.2.key acc.1.createFiles).isSome)) with
          | none =>
              simp only [phase4Step, hr, phase4None, if_pos hc, hs]
              refine ⟨herase
                { acc.1 with
                    createFiles := if (kvLookup a.2.key acc.1.createFiles).isSome = true
                      then kvErase a.2.key acc.1.createFiles else acc.1.createFiles,
                    createFolders := if (kvLookup a.2.key acc.1.createFolders).isSome = true
                      then kvErase a.2.key acc.1.createFolders else acc.1.createFolders }
                ⟨?_, ?_, hD.del, ?_, ?_, ?_, hD.kdel⟩, hC⟩
              · intro j hj
                exact hD.cf j (memKeys_ite_erase hj)
              · intro j hj
                exact hD.cfo j (memKeys_ite_erase hj)
              · intro j hj
                obtain ⟨f1, f2, f3⟩ := hD.fm j hj
                exact ⟨fun hj2 => f1 (memKeys_ite_erase hj2),
                  fun hj2 => f2 (memKeys_ite_erase hj2), f3⟩
              · exact kvKeyed_ite_erase hD.kcf
              · exact kvKeyed_ite_erase hD.kcfo
          | some n =>
              simp only [phase4Step, hr, phase4None, if_pos hc, hs]
              exact ⟨herase _ hD, hC⟩
        · simp only [phase4Step, hr, phase4None, if_neg hc]
          exact ⟨herase _ hD, hC⟩
  · exact ⟨hI, by intro m hm; cases hm⟩

/-- Phase 5 preserves the disjointness invariant when every candidate create
key is drawn from the create-file key set. -/
theorem phase5_inv {Kcf Kcfo Kd : List String} (hsep : KeysSep Kcf Kcfo Kd)
    {b : Batch} (cands : List Move) (hI : DisjInv Kcf Kcfo Kd b)
    (hc : ∀ m ∈ cands, m.createEvent.key ∈ Kcf) :
    DisjInv Kcf Kcfo Kd (phase5 b cands) := by
  apply foldl_pres (DisjInv Kcf Kcfo Kd) commitMove (sortClosestMoves cands) b
  · intro acc m hm hQ
    have hkc : m.createEvent.key ∈ Kcf := hc m (mem_of_sortClosestMoves hm)
    refine ⟨?_, hQ.cfo, ?_, ?_, kvKeyed_kvErase hQ.kcf, hQ.kcfo, kvKeyed_kvErase hQ.kdel⟩
    · intro j hj
      exact hQ.cf j (mem_keysOf_kvErase.1 hj).1
    · intro j hj
      exact hQ.del j (mem_keysOf_kvErase.1 hj).1
    · intro j hj
      rcases mem_keysOf_kvUpsert.1 hj with ⟨hm2, _⟩ | rfl
      · obtain ⟨f1, f2, f3⟩ := hQ.fm j hm2
        refine ⟨?_, f2, ?_⟩
        · intro hj2
          exact f1 (mem_keysOf_kvErase.1 hj2).1
        · intro hj2
          exact f3 (mem_keysOf_kvErase.1 hj2).1
      · refine ⟨?_, ?_, ?_⟩
        · intro hj2
          exact absurd rfl (mem_keysOf_kvErase.1 hj2).2
        · intro hj2
          exact (hsep.1 _ hkc).1 (hQ.cfo _ hj2)
        · intro hj2
          exact (hsep.1 _ hkc).2 (hQ.del _ (mem_keysOf_kvErase.1 hj2).1)
  · exact hI

/-- A filtered batch built from keyed, pairwise-disjoint input collections
has pairwise-disjoint collections (the amended B1). -/
theorem FilterBatch_disjoint {P : Probes} {b bf : Batch}
    (hkcf : kvKeyed b.createFiles) (hkcfo : kvKeyed b.createFolders)
    (hkd : kvKeyed b.deletes) (hfm0 : b.fileMoves = [])
    (hsep1 : ∀ k, memKeys k b.createFiles →
      ¬ memKeys k b.createFolders ∧ ¬ memKeys k b.deletes)
    (hsep2 : ∀ k, memKeys k b.createFolders → ¬ memKeys k b.deletes)
    (h : FilterBatch P b = some bf) :
    BatchKeysDisjoint bf := by
  obtain ⟨b1, ds, h1, hds, hbf⟩ := FilterBatch_unfold h
  obtain ⟨p1cf, p1d, p1cfo, p1fm, p1kcf, p1kd⟩ := phase1_props hkcf hkd h1
  have hkcfo1 : kvKeyed b1.createFolders := by
    rw [p1cfo]
    exact hkcfo
  obtain ⟨p2cfo, p2d, p2cf, p2fm, p2kcfo, p2kd⟩ := phase2_props P hkcfo1 p1kd
  have hkcf2 : kvKeyed (phase2 P b1).createFiles := by
    rw [p2cf]
    exact p1kcf
  have hsep : KeysSep (keysOf b.createFiles) (keysOf b.createFolders) (keysOf b.deletes) :=
    ⟨fun k hk => hsep1 k hk, fun k hk => hsep2 k hk⟩
  have hI2 : DisjInv (keysOf b.createFiles) (keysOf b.createFolders) (keysOf b.deletes)
      (phase2 P b1) := by
    refine ⟨?_, ?_, ?_, ?_, hkcf2, p2kcfo, p2kd⟩
    · intro j hj
      rw [p2cf] at hj
      exact p1cf j hj
    · intro j hj
      have hj2 := p2cfo j hj
      rw [p1cfo] at hj2
      exact hj2
    · intro j hj
      exact p1d j (p2d j hj)
    · intro j hj
      rw [p2fm, p1fm, hfm0] at hj
      cases hj
  have hI3 := detectFolderMoves_inv P hsep hI2
  obtain ⟨hI4, hc4⟩ := phase4_inv P hsep hI3
  have hI5 := phase5_inv hsep (phase4 P (detectFolderMoves P (phase2 P b1))).2 hI4 hc4
  have hIf : DisjInv (keysOf b.createFiles) (keysOf b.createFolders) (keysOf b.deletes) bf := by
    rw [hbf]
    have hsub := pruneDeletes_sub hds
    refine ⟨hI5.cf, hI5.cfo, ?_, ?_, hI5.kcf, hI5.kcfo, kvKeyed_sub hsub hI5.kdel⟩
    · intro j hj
      exact hI5.del j (memKeys_sub hsub hj)
    · intro j hj
      obtain ⟨f1, f2, f3⟩ := hI5.fm j hj
      exact ⟨f1, f2, fun hj2 => f3 (memKeys_sub hsub hj2)⟩
  intro k
  refine ⟨?_, ?_, ?_⟩
  · intro hk
    refine ⟨?_, ?_, ?_⟩
    · intro hk2
      exact (hsep.1 _ (hIf.cf _ hk)).1 (hIf.cfo _ hk2)
    · intro hk2
      exact (hsep.1 _ (hIf.cf _ hk)).2 (hIf.del _ hk2)
    · intro hk2
      exact (hIf.fm _ hk2).1 hk
  · intro hk
    refine ⟨?_, ?_⟩
    · intro hk2
      exact hsep.2 _ (hIf.cfo _ hk) (hIf.del _ hk2)
    · intro hk2
      exact (hIf.fm _ hk2).2.1 hk
  · intro hk
    intro hk2
    exact (hIf.fm _ hk2).2.2 hk

/-! ### Localization of a failed create-file probe (error handling) -/

/-- Discard the key from both the create-file and delete collections. -/
def eraseKeyBatch (k : String) (b : Batch) : Batch :=
  { b with createFiles := kvErase k b.createFiles, deletes := kvErase k b.deletes }

theorem kvErase_kvErase_comm {j k : String} {m : KV} :
    kvErase j (kvErase k m) = kvErase k (kvErase j m) := by
  unfold kvErase
  rw [List.filter_filter, List.filter_filter]
  apply List.filter_congr
  intro p _
  exact Bool.and_comm _ _

theorem kvErase_kvUpdate_comm {j k : String} {v : BatchedEvent} {m : KV} :
    kvErase k (kvUpdate j v m) = kvUpdate j v (kvErase k m) := by
  unfold kvErase kvUpdate
  rw [List.filter_map]
  congr 1
  apply List.filter_congr
  intro p _
  by_cases hpj : p.1 = j
  · simp [Function.comp, hpj]
  · simp [Function.comp, hpj]

/-- One phase-1 body step commutes with discarding an unrelated key. -/
theorem phase1Body_erase (P : Probes) (k : String) (x : Batch) (a : String × BatchedEvent) :
    phase1Body P (eraseKeyBatch k x) a = (phase1Body P x a).map (eraseKeyBatch k) := by
  cases hp : createProbe P none a.2.eventInfo with
  | err =>
      simp only [phase1Body, hp, Option.map_some', eraseKeyBatch]
      rw [show kvErase a.2.key (kvErase k x.createFiles) =
            kvErase k (kvErase a.2.key x.createFiles) from kvErase_kvErase_comm,
          show kvErase a.2.key (kvErase k x.deletes) =
            kvErase k (kvErase a.2.key x.deletes) from kvErase_kvErase_comm]
  | missing => simp only [phase1Body, hp, Option.map_none']
  | found n =>
      simp only [phase1Body, hp, Option.map_some', eraseKeyBatch]
      rw [show kvUpdate a.1 { a.2 with node := some n } (kvErase k x.createFiles) =
            kvErase k (kvUpdate a.1 { a.2 with node := some n } x.createFiles) from
            kvErase_kvUpdate_comm.symm]

/-- The phase-1 fold commutes with discarding a key, entry by entry. -/
theorem phase1_foldl_erase (P : Probes) (k : String) :
    ∀ (L : List (String × BatchedEvent)) (ox : Option Batch),
      L.foldl (phase1Step P) (ox.map (eraseKeyBatch k)) =
        (L.foldl (phase1Step P) ox).map (eraseKeyBatch k) := by
  intro L
  induction L with
  | nil => intro ox; rfl
  | cons a t ih =>
      intro ox
      cases ox with
      | none =>
          simp only [Option.map_none', List.foldl_cons]
          have h1 : phase1Step P none a = none := rfl
          rw [h1]
          have := ih none
          simpa using this
      | some x =>
          simp only [Option.map_some', List.foldl_cons]
          have h1 : phase1Step P (some (eraseKeyBatch k x)) a =
              (phase1Body P x a).map (eraseKeyBatch k) := phase1Body_erase P k x a
          have h2 : phase1Step P (some x) a = phase1Body P x a := rfl
          rw [h1, h2]
          exact ih (phase1Body P x a)

/-- A failed source probe for a create-file entry is fully localized: the
filter of the batch equals the filter of the batch with that entry and its
same-key delete discarded up front. -/
theorem phase1_localized {P : Probes} {b : Batch} {k : String} {ce : BatchedEvent}
    (hmem : (k, ce) ∈ b.createFiles)
    (hkey : kvKeyed b.createFiles)
    (hnd : (keysOf b.createFiles).Nodup)
    (herr : createProbe P none ce.eventInfo = .err) :
    phase1 P b = phase1 P (eraseKeyBatch k b) := by
  have hk : ce.key = k := (hkey (k, ce) hmem).symm
  obtain ⟨L1, L2, hsplit⟩ := List.append_of_mem hmem
  have hkeys : keysOf b.createFiles = keysOf L1 ++ k :: keysOf L2 := by
    rw [hsplit]
    simp [keysOf]
  have hnd2 := hkeys ▸ hnd
  have hknl1 : ¬ memKeys k L1 := by
    intro hmem1
    have := (List.nodup_append.1 hnd2).2.2
    exact this hmem1 (List.mem_cons_self _ _)
  have hknl2 : ¬ memKeys k L2 := by
    have h2 := (List.nodup_append.1 hnd2).2.1
    exact (List.nodup_cons.1 h2).1
  have herase : kvErase k b.createFiles = L1 ++ L2 := by
    rw [hsplit]
    unfold kvErase
    rw [List.filter_append]
    have e1 : List.filter (fun p => decide (p.1 ≠ k)) L1 = L1 := by
      apply List.filter_eq_self.mpr
      intro p hp
      apply decide_eq_true
      intro he
      exact hknl1 (List.mem_map.2 ⟨p, hp, he⟩)
    have e2 : List.filter (fun p => decide (p.1 ≠ k)) ((k, ce) :: L2) =
        List.filter (fun p => decide (p.1 ≠ k)) L2 := by
      simp [List.filter_cons]
    have e3 : List.filter (fun p => decide (p.1 ≠ k)) L2 = L2 := by
      apply List.filter_eq_self.mpr
      intro p hp
      apply decide_eq_true
      intro he
      exact hknl2 (List.mem_map.2 ⟨p, hp, he⟩)
    rw [e1, e2, e3]
  have hstepk : ∀ ox : Option Batch, phase1Step P ox (k, ce) = ox.map (eraseKeyBatch k) := by
    intro ox
    cases ox with
    | none => rfl
    | some x =>
        have : phase1Step P (some x) (k, ce) = phase1Body P x (k, ce) := rfl
        rw [this]
        simp only [phase1Body, herr, Option.map_some']
        unfold eraseKeyBatch
        rw [hk]
  unfold phase1
  conv_lhs => rw [hsplit]
  rw [List.foldl_append]
  have hcf : (eraseKeyBatch k b).createFiles = L1 ++ L2 := herase
  rw [hcf, List.foldl_append]
  have hL1 : (L1.foldl (phase1Step P) (some (eraseKeyBatch k b))) =
      (L1.foldl (phase1Step P) (some b)).map (eraseKeyBatch k) := by
    have := phase1_foldl_erase P k L1 (some b)
    simpa using this
  rw [hL1]
  have hhead : List.foldl (phase1Step P) (L1.foldl (phase1Step P) (some b)) ((k, ce) :: L2) =
      List.foldl (phase1Step P) ((L1.foldl (phase1Step P) (some b)).map (eraseKeyBatch k)) L2 := by
    rw [List.foldl_cons, hstepk]
  rw [hhead]

/-! ### Localization of a failed create-folder probe (error handling) -/

/-- Discard the key from both the create-folder and delete collections. -/
def eraseFolderKeyBatch (k : String) (b : Batch) : Batch :=
  { b with createFolders := kvErase k b.createFolders, deletes := kvErase k b.deletes }

/-- One phase-1 body step commutes with discarding a folder key (phase 1
never reads the folder collection). -/
theorem phase1Body_eraseFolder (P : Probes) (k : String) (x : Batch)
    (a : String × BatchedEvent) :
    phase1Body P (eraseFolderKeyBatch k x) a =
      (phase1Body P x a).map (eraseFolderKeyBatch k) := by
  cases hp : createProbe P none a.2.eventInfo with
  | err =>
      simp only [phase1Body, hp, Option.map_some', eraseFolderKeyBatch]
      rw [show kvErase a.2.key (kvErase k x.deletes) =
            kvErase k (kvErase a.2.key x.deletes) from kvErase_kvErase_comm]
  | missing => simp only [phase1Body, hp, Option.map_none']
  | found n => simp only [phase1Body, hp, Option.map_some', eraseFolderKeyBatch]

/-- The phase-1 fold commutes with discarding a folder key. -/
theorem phase1_foldl_eraseFolder (P : Probes) (k : String) :
    ∀ (L : List (String × BatchedEvent)) (ox : Option Batch),
      L.foldl (phase1Step P) (ox.map (eraseFolderKeyBatch k)) =
        (L.foldl (phase1Step P) ox).map (eraseFolderKeyBatch k) := by
  intro L
  induction L with
  | nil => intro ox; rfl
  | cons a t ih =>
      intro ox
      cases ox with
      | none =>
          simp only [Option.map_none', List.foldl_cons]
          have h1 : phase1Step P none a = none := rfl
          rw [h1]
          have := ih none
          simpa using this
      | some x =>
          simp only [Option.map_some', List.foldl_cons]
          have h1 : phase1Step P (some (eraseFolderKeyBatch k x)) a =
              (phase1Body P x a).map (eraseFolderKeyBatch k) :=
            phase1Body_eraseFolder P k x a
          have h2 : phase1Step P (some x) a = phase1Body P x a := rfl
          rw [h1, h2]
          exact ih (phase1Body P x a)

/-- One phase-2 step commutes with discarding an unrelated folder key. -/
theorem phase2Step_eraseFolder (P : Probes) (k : String) (x : Batch)
    (a : String × BatchedEvent) :
    phase2Step P (eraseFolderKeyBatch k x) a =
      eraseFolderKeyBatch k (phase2Step P x a) := by
  cases hp : createProbe P (some false) a.2.eventInfo with
  | err =>
      simp only [phase2Step, hp, eraseFolderKeyBatch]
      rw [show kvErase a.2.key (kvErase k x.createFolders) =
            kvErase k (kvErase a.2.key x.createFolders) from kvErase_kvErase_comm,
          show kvErase a.2.key (kvErase k x.deletes) =
            kvErase k (kvErase a.2.key x.deletes) from kvErase_kvErase_comm]
  | missing =>
      simp only [phase2Step, hp, eraseFolderKeyBatch]
      rw [show kvUpdate a.1 { a.2 with node := none } (kvErase k x.createFolders) =
            kvErase k (kvUpdate a.1 { a.2 with node := none } x.createFolders) from
            kvErase_kvUpdate_comm.symm]
  | found n =>
      simp only [phase2Step, hp, eraseFolderKeyBatch]
      rw [show kvUpdate a.1 { a.2 with node := some n } (kvErase k x.createFolders) =
            kvErase k (kvUpdate a.1 { a.2 with node := some n } x.createFolders) from
            kvErase_kvUpdate_comm.symm]

/-- The phase-2 fold commutes with discarding a folder key, entry by entry. -/
theorem phase2_foldl_eraseFolder (P : Probes) (k : String) :
    ∀ (L : List (String × BatchedEvent)) (x : Batch),
      L.foldl (phase2Step P) (eraseFolderKeyBatch k x) =
        eraseFolderKeyBatch k (L.foldl (phase2Step P) x) := by
  intro L
  induction L with
  | nil => intro x; rfl
  | cons a t ih =>
      intro x
      simp only [List.foldl_cons]
      rw [phase2Step_eraseFolder P k x a]
      exact ih (phase2Step P x a)

/-- A failed source probe for a create-folder entry is fully localized at
phase 2: the folder enrichment of the batch equals the folder enrichment of
the batch with that entry and its same-key delete discarded up front. -/
theorem phase2_localized {P : Probes} {b : Batch} {k : String} {ce : BatchedEvent}
    (hmem : (k, ce) ∈ b.createFolders)
    (hkey : kvKeyed b.createFolders)
    (hnd : (keysOf b.createFolders).Nodup)
    (herr : createProbe P (some false) ce.eventInfo = .err) :
    phase2 P b = phase2 P (eraseFolderKeyBatch k b) := by
  have hk : ce.key = k := (hkey (k, ce) hmem).symm
  obtain ⟨L1, L2, hsplit⟩ := List.append_of_mem hmem
  have hkeys : keysOf b.createFolders = keysOf L1 ++ k :: keysOf L2 := by
    rw [hsplit]
    simp [keysOf]
  have hnd2 := hkeys ▸ hnd
  have hknl1 : ¬ memKeys k L1 := by
    intro hmem1
    have := (List.nodup_append.1 hnd2).2.2
    exact this hmem1 (List.mem_cons_self _ _)
  have hknl2 : ¬ memKeys k L2 := by
    have h2 := (List.nodup_append.1 hnd2).2.1
    exact (List.nodup_cons.1 h2).1
  have herase : kvErase k b.createFolders = L1 ++ L2 := by
    rw [hsplit]
    unfold kvErase
    rw [List.filter_append]
    have e1 : List.filter (fun p => decide (p.1 ≠ k)) L1 = L1 := by
      apply List.filter_eq_self.mpr
      intro p hp
      apply decide_eq_true
      intro he
      exact hknl1 (List.mem_map.2 ⟨p, hp, he⟩)
    have e2 : List.filter (fun p => decide (p.1 ≠ k)) ((k, ce) :: L2) =
        List.filter (fun p => decide (p.1 ≠ k)) L2 := by
      simp [List.filter_cons]
    have e3 : List.filter (fun p => decide (p.1 ≠ k)) L2 = L2 := by
      apply List.filter_eq_self.mpr
      intro p hp
      apply decide_eq_true
      intro he
      exact hknl2 (List.mem_map.2 ⟨p, hp, he⟩)
    rw [e1, e2, e3]
  have hstepk : ∀ x : Batch, phase2Step P x (k, ce) = eraseFolderKeyBatch k x := by
    intro x
    simp only [phase2Step, herr, eraseFolderKeyBatch]
    rw [hk]
  unfold phase2
  conv_lhs => rw [hsplit]
  rw [List.foldl_append]
  have hcfo : (eraseFolderKeyBatch k b).createFolders = L1 ++ L2 := herase
  rw [hcfo, List.foldl_append]
  rw [phase2_foldl_eraseFolder P k L1 b]
  rw [List.foldl_cons, hstepk]

/-- A failed source probe for a create-folder entry is fully localized
through the whole filter: filtering the batch equals filtering the batch with
that entry and its same-key delete discarded up front. -/
theorem FilterBatch_folder_localized {P : Probes} {b : Batch} {k : String}
    {ce : BatchedEvent}
    (hmem : (k, ce) ∈ b.createFolders)
    (hkcf : kvKeyed b.createFiles) (hkcfo : kvKeyed b.createFolders)
    (hkd : kvKeyed b.deletes)
    (hnd : (keysOf b.createFolders).Nodup)
    (herr : createProbe P (some false) ce.eventInfo = .err) :
    FilterBatch P b = FilterBatch P (eraseFolderKeyBatch k b) := by
  have hph1 : phase1 P (eraseFolderKeyBatch k b) =
      (phase1 P b).map (eraseFolderKeyBatch k) := by
    unfold phase1
    have hcf : (eraseFolderKeyBatch k b).createFiles = b.createFiles := rfl
    rw [hcf]
    have := phase1_foldl_eraseFolder P k b.createFiles (some b)
    simpa using this
  unfold FilterBatch
  rw [hph1]
  cases h1 : phase1 P b with
  | none => rfl
  | some b1 =>
      have hcfo1 : b1.createFolders = b.createFolders :=
        (phase1_props hkcf hkd h1).2.2.1
      have hmem1 : (k, ce) ∈ b1.createFolders := by
        rw [hcfo1]
        exact hmem
      have hkcfo1 : kvKeyed b1.createFolders := by
        rw [hcfo1]
        exact hkcfo
      have hnd1 : (keysOf b1.createFolders).Nodup := by
        rw [hcfo1]
        exact hnd
      have hp2 : phase2 P b1 = phase2 P (eraseFolderKeyBatch k b1) :=
        phase2_localized hmem1 hkcfo1 hnd1 herr
      have hpost : postPhase1 P (eraseFolderKeyBatch k b1) = postPhase1 P b1 := by
        unfold postPhase1
        rw [← hp2]
      simp only [Option.map_some', Option.some_bind]
      rw [hpost]

/-! ### Scheduler lemmas -/

theorem strMk_data (s : String) : String.mk s.data = s := by
  cases s
  rfl

theorem closePref_append_ne_empty (s : String) : closePref ++ s ≠ "" := by
  intro h
  have hd : (closePref ++ s).data = [] := by
    rw [h]
  rw [String.data_append] at hd
  cases hd

theorem goHasPref_append (s : String) : goHasPref closePref (closePref ++ s) = true := by
  unfold goHasPref
  rw [String.data_append]
  exact List.isPrefixOf_iff_prefix.2 (List.prefix_append _ _)

theorem goTrimPref_append (s : String) : goTrimPref closePref (closePref ++ s) = s := by
  unfold goTrimPref
  rw [if_pos (goHasPref_append s), String.data_append, List.drop_left, strMk_data]

theorem find?_key_filter_ne {s u : String} {c : List (String × List EventInfo)} (hne : u ≠ s) :
    (c.filter (fun p => decide (p.1 ≠ s))).find? (fun p => decide (p.1 = u)) =
      c.find? (fun p => decide (p.1 = u)) := by
  induction c with
  | nil => rfl
  | cons p t ih =>
      rw [List.filter_cons]
      by_cases hps : p.1 = s
      · have h1 : decide (p.1 ≠ s) = false := by simp [hps]
        rw [h1]
        simp only [Bool.false_eq_true, if_false]
        rw [ih, List.find?_cons]
        have h2 : decide (p.1 = u) = false := decide_eq_false (fun he => hne (he ▸ hps))
        rw [h2]
      · have h1 : decide (p.1 ≠ s) = true := by simp [hps]
        rw [h1]
        simp only [if_true]
        rw [List.find?_cons, List.find?_cons]
        by_cases hpu : p.1 = u
        · have h2 : decide (p.1 = u) = true := by simp [hpu]
          rw [h2]
        · have h2 : decide (p.1 = u) = false := by simp [hpu]
          rw [h2]
          exact ih

theorem cacheGet_del_other {s u : String} {c : List (String × List EventInfo)} (hne : u ≠ s) :
    cacheGet u (cacheDel s c) = cacheGet u c := by
  unfold cacheGet cacheDel
  rw [find?_key_filter_ne hne]

theorem cacheHas_del_other {s u : String} {c : List (String × List EventInfo)} (hne : u ≠ s) :
    cacheHas u (cacheDel s c) = cacheHas u c := by
  unfold cacheHas cacheDel
  rw [find?_key_filter_ne hne]

theorem find?_key_filter_self {s : String} {c : List (String × List EventInfo)} :
    (c.filter (fun p => decide (p.1 ≠ s))).find? (fun p => decide (p.1 = s)) = none := by
  apply List.find?_eq_none.2
  intro p hp
  have := (List.mem_filter.1 hp).2
  simpa using this

theorem cacheHas_del_self {s : String} {c : List (String × List EventInfo)} :
    cacheHas s (cacheDel s c) = false := by
  unfold cacheHas cacheDel
  rw [find?_key_filter_self]
  rfl

theorem cacheGet_set_self {s : String} {v : List EventInfo} {c : List (String × List EventInfo)} :
    cacheGet s (cacheSet s v c) = v := by
  unfold cacheGet cacheSet
  rw [List.find?_append, find?_key_filter_self]
  simp [List.find?_cons]

theorem cacheGet_set_other {s u : String} {v : List EventInfo}
    {c : List (String × List EventInfo)} (hne : u ≠ s) :
    cacheGet u (cacheSet s v c) = cacheGet u c := by
  unfold cacheGet cacheSet
  rw [List.find?_append, find?_key_filter_ne hne]
  cases hf : c.find? (fun p => decide (p.1 = u)) with
  | some q => rfl
  | none =>
      have : decide ((s, v).1 = u) = false := by
        simp
        intro he
        exact hne he.symm
      simp [List.find?_cons, this]

theorem cacheHas_set_other {s u : String} {v : List EventInfo}
    {c : List (String × List EventInfo)} (hne : u ≠ s) :
    cacheHas u (cacheSet s v c) = cacheHas u c := by
  unfold cacheHas cacheSet
  rw [List.find?_append, find?_key_filter_ne hne]
  cases hf : c.find? (fun p => decide (p.1 = u)) with
  | some q => rfl
  | none =>
      have : decide ((s, v).1 = u) = false := by
        simp
        intro he
        exact hne he.symm
      simp [List.find?_cons, this]

theorem cacheGet_of_not_has {s : String} {c : List (String × List EventInfo)}
    (h : cacheHas s c = false) : cacheGet s c = [] := by
  unfold cacheHas at h
  unfold cacheGet
  cases hf : c.find? (fun p => decide (p.1 = s)) with
  | some q =>
      rw [hf] at h
      cases h
  | none => rfl

/-- Flush accumulation of the scheduler run. -/
theorem schedRun_acc :
    ∀ (l : List SchedInput) (st : SchedState) (fl : List Flush),
      l.foldl (fun acc i => let r := schedStep acc.1 i; (r.1, acc.2 ++ r.2)) (st, fl) =
        ((schedRun st l).1, fl ++ (schedRun st l).2) := by
  intro l
  induction l with
  | nil =>
      intro st fl
      simp [schedRun]
  | cons i t ih =>
      intro st fl
      have hrun : schedRun st (i :: t) =
          ((schedRun (schedStep st i).1 t).1,
            (schedStep st i).2 ++ (schedRun (schedStep st i).1 t).2) := by
        unfold schedRun
        rw [List.foldl_cons]
        exact ih (schedStep st i).1 (schedStep st i).2
      rw [List.foldl_cons]
      show List.foldl (fun acc i => let r := schedStep acc.1 i; (r.1, acc.2 ++ r.2))
          ((schedStep st i).1, fl ++ (schedStep st i).2) t =
        ((schedRun st (i :: t)).1, fl ++ (schedRun st (i :: t)).2)
      rw [ih, hrun]
      simp [List.append_assoc]

theorem schedRun_cons (st : SchedState) (i : SchedInput) (l : List SchedInput) :
    schedRun st (i :: l) =
      ((schedRun (schedStep st i).1 l).1,
        (schedStep st i).2 ++ (schedRun (schedStep st i).1 l).2) := by
  unfold schedRun
  rw [List.foldl_cons]
  exact schedRun_acc l (schedStep st i).1 (schedStep st i).2

theorem schedRun_append (st : SchedState) (l1 l2 : List SchedInput) :
    schedRun st (l1 ++ l2) =
      ((schedRun (schedRun st l1).1 l2).1,
        (schedRun st l1).2 ++ (schedRun (schedRun st l1).1 l2).2) := by
  unfold schedRun
  rw [List.foldl_append]
  exact schedRun_acc l2 (schedRun st l1).1 (schedRun st l1).2

/-- Inputs that do not close tag `s` extend its buffer by exactly the
`s`-tagged events and emit no `s`-tagged flush. -/
theorem schedRun_clean (s : String) (hs0 : s ≠ "") (hs : goHasPref closePref s = false) :
    ∀ (l : List SchedInput), (∀ i ∈ l, ¬ closesTag s i) →
      ∀ st : SchedState,
        cacheGet s (schedRun st l).1.cache = cacheGet s st.cache ++ sessionEvs s l ∧
        (schedRun st l).2.filter (fun f => decide (f.tag = some s)) = [] := by
  intro l
  induction l with
  | nil =>
      intro _ st
      simp [schedRun, sessionEvs]
  | cons i t ih =>
      intro hcl st
      have hi : ¬ closesTag s i := hcl i (List.mem_cons_self _ _)
      have ht : ∀ j ∈ t, ¬ closesTag s j := fun j hj => hcl j (List.mem_cons_of_mem _ hj)
      rw [schedRun_cons]
      cases i with
      | ev e =>
          by_cases hse : e.session = ""
          · have hstep : schedStep st (.ev e) = (⟨st.cache, st.anon ++ [e]⟩, []) ∨
                schedStep st (.ev e) = (st, []) := by
              by_cases hfree : e.scanEvent = true ∨ e.operationId = ""
              · left
                simp [schedStep, hse, hfree]
              · right
                simp [schedStep, hse, hfree]
            have hes : sessionEvs s (SchedInput.ev e :: t) = sessionEvs s t := by
              simp only [sessionEvs, List.filterMap_cons]
              have : ¬ (e.session = s) := by
                rw [hse]
                exact fun he => hs0 he.symm
              simp [this]
            rcases hstep with hst | hst <;>
            · rw [hst]
              obtain ⟨ihg, ihf⟩ := ih ht _
              simp only [List.nil_append, hes]
              exact ⟨ihg, by simp [ihf]⟩
          · by_cases hcp : goHasPref closePref e.session = true
            · -- a close event for some other tag
              have hne : goTrimPref closePref e.session ≠ s := by
                intro he
                exact hi ⟨hcp, he⟩
              have hstep : schedStep st (.ev e) =
                  (⟨cacheDel (goTrimPref closePref e.session) st.cache, st.anon⟩,
                    [⟨some (goTrimPref closePref e.session),
                      cacheGet (goTrimPref closePref e.session) st.cache ++ [e], true⟩]) := by
                simp [schedStep, hse, hcp]
              have hes : sessionEvs s (SchedInput.ev e :: t) = sessionEvs s t := by
                simp only [sessionEvs, List.filterMap_cons]
                have hnes : ¬ (e.session = s) := by
                  intro he
                  rw [he, hs] at hcp
                  cases hcp
                simp [hnes]
              rw [hstep]
              obtain ⟨ihg, ihf⟩ := ih ht _
              constructor
              · rw [hes, ihg]
                have : cacheGet s (cacheDel (goTrimPref closePref e.session) st.cache) =
                    cacheGet s st.cache := cacheGet_del_other (fun he => hne he.symm)
                rw [this]
              · rw [List.filter_append, ihf]
                simp [List.filter_cons, hne]
            · -- a plain session event
              have hstep : schedStep st (.ev e) =
                  (⟨cacheSet e.session (cacheGet e.session st.cache ++ [e]) st.cache, st.anon⟩,
                    []) := by
                simp [schedStep, hse, hcp]
              rw [hstep]
              obtain ⟨ihg, ihf⟩ := ih ht _
              by_cases hes : e.session = s
              · have hget : cacheGet s (cacheSet e.session (cacheGet e.session st.cache ++ [e])
                    st.cache) = cacheGet s st.cache ++ [e] := by
                  rw [hes]
                  exact cacheGet_set_self
                have hevs : sessionEvs s (SchedInput.ev e :: t) = e :: sessionEvs s t := by
                  simp [sessionEvs, List.filterMap_cons, hes]
                constructor
                · rw [ihg, hget, hevs]
                  simp
                · simpa using ihf
              · have hget : cacheGet s (cacheSet e.session (cacheGet e.session st.cache ++ [e])
                    st.cache) = cacheGet s st.cache :=
                  cacheGet_set_other (fun he => hes he.symm)
                have hevs : sessionEvs s (SchedInput.ev e :: t) = sessionEvs s t := by
                  simp [sessionEvs, List.filterMap_cons, hes]
                constructor
                · rw [ihg, hget, hevs]
                · simpa using ihf
      | closeSession u =>
          have hne : u ≠ s := fun he => hi he
          have hstep : schedStep st (.closeSession u) =
              (if cacheHas u st.cache = true then
                (⟨cacheDel u st.cache, st.anon⟩, [⟨some u, cacheGet u st.cache, true⟩])
              else (st, [])) := by
            simp [schedStep]
          by_cases hh : cacheHas u st.cache = true
          · rw [hstep, if_pos hh]
            obtain ⟨ihg, ihf⟩ := ih ht _
            constructor
            · have : cacheGet s (cacheDel u st.cache) = cacheGet s st.cache :=
                cacheGet_del_other (Ne.symm hne)
              rw [ihg, this]
              simp [sessionEvs]
            · rw [List.filter_append, ihf]
              simp [List.filter_cons, hne]
          · rw [hstep, if_neg hh]
            obtain ⟨ihg, ihf⟩ := ih ht _
            constructor
            · rw [ihg]
              simp [sessionEvs]
            · simpa using ihf
      | timeout =>
          have hstep : schedStep st .timeout =
              (if st.anon ≠ [] then (⟨st.cache, []⟩, [⟨none, st.anon, false⟩])
              else (st, [])) := by
            simp [schedStep]
          by_cases hh : st.anon ≠ []
          · rw [hstep, if_pos hh]
            obtain ⟨ihg, ihf⟩ := ih ht _
            constructor
            · rw [ihg]
              simp [sessionEvs]
            · rw [List.filter_append, ihf]
              simp [List.filter_cons]
          · rw [hstep, if_neg hh]
            obtain ⟨ihg, ihf⟩ := ih ht _
            constructor
            · rw [ihg]
              simp [sessionEvs]
            · simpa using ihf

/-- Inputs that never touch tag `s` leave its absence intact and emit no
`s`-tagged flush. -/
theorem schedRun_untouched (s : String) (hs0 : s ≠ "") (hs : goHasPref closePref s = false) :
    ∀ (l : List SchedInput), (∀ i ∈ l, ¬ touchesTag s i) →
      ∀ st : SchedState, cacheHas s st.cache = false →
        cacheHas s (schedRun st l).1.cache = false ∧
        (schedRun st l).2.filter (fun f => decide (f.tag = some s)) = [] := by
  intro l hcl st hh
  have hcl2 : ∀ i ∈ l, ¬ closesTag s i := fun i hi hc => hcl i hi (Or.inr hc)
  obtain ⟨hg, hf⟩ := schedRun_clean s hs0 hs l hcl2 st
  refine ⟨?_, hf⟩
  -- no event in l carries tag s, so the buffer content stays that of st
  have hse : sessionEvs s l = [] := by
    unfold sessionEvs
    rw [List.filterMap_eq_nil_iff]
    intro i hi
    cases i with
    | ev e =>
        have : ¬ (e.session = s) := fun he => hcl _ hi (Or.inl he)
        simp [this]
    | closeSession u => rfl
    | timeout => rfl
  -- a second induction: cacheHas is preserved by non-touching inputs
  clear hg hf hse hcl2
  induction l generalizing st with
  | nil => simpa [schedRun] using hh
  | cons i t ih =>
      have hi : ¬ touchesTag s i := hcl i (List.mem_cons_self _ _)
      have ht : ∀ j ∈ t, ¬ touchesTag s j := fun j hj => hcl j (List.mem_cons_of_mem _ hj)
      rw [schedRun_cons]
      cases i with
      | ev e =>
          by_cases hse : e.session = ""
          · by_cases hfree : e.scanEvent = true ∨ e.operationId = ""
            · have hstep : schedStep st (.ev e) = (⟨st.cache, st.anon ++ [e]⟩, []) := by
                simp [schedStep, hse, hfree]
              rw [hstep]
              exact ih ht _ hh
            · have hstep : schedStep st (.ev e) = (st, []) := by
                simp [schedStep, hse, hfree]
              rw [hstep]
              exact ih ht _ hh
          · by_cases hcp : goHasPref closePref e.session = true
            · have hne : goTrimPref closePref e.session ≠ s := by
                intro he
                exact hi (Or.inr ⟨hcp, he⟩)
              have hstep : schedStep st (.ev e) =
                  (⟨cacheDel (goTrimPref closePref e.session) st.cache, st.anon⟩,
                    [⟨some (goTrimPref closePref e.session),
                      cacheGet (goTrimPref closePref e.session) st.cache ++ [e], true⟩]) := by
                simp [schedStep, hse, hcp]
              rw [hstep]
              apply ih ht
              rw [cacheHas_del_other (fun he => hne he.symm)]
              exact hh
            · have hnes : e.session ≠ s := fun he => hi (Or.inl he)
              have hstep : schedStep st (.ev e) =
                  (⟨cacheSet e.session (cacheGet e.session st.cache ++ [e]) st.cache, st.anon⟩,
                    []) := by
                simp [schedStep, hse, hcp]
              rw [hstep]
              apply ih ht
              rw [cacheHas_set_other (Ne.symm hnes)]
              exact hh
      | closeSession u =>
          have hne : u ≠ s := fun he => hi (Or.inr he)
          by_cases hh2 : cacheHas u st.cache = true
          · have hstep : schedStep st (.closeSession u) =
                (⟨cacheDel u st.cache, st.anon⟩, [⟨some u, cacheGet u st.cache, true⟩]) := by
              simp [schedStep, hh2]
            rw [hstep]
            apply ih ht
            rw [cacheHas_del_other (Ne.symm hne)]
            exact hh
          · have hstep : schedStep st (.closeSession u) = (st, []) := by
              simp [schedStep, hh2]
            rw [hstep]
            exact ih ht _ hh
      | timeout =>
          by_cases hh2 : st.anon ≠ []
          · have hstep : schedStep st .timeout = (⟨st.cache, []⟩, [⟨none, st.anon, false⟩]) := by
              simp [schedStep, hh2]
            rw [hstep]
            exact ih ht _ hh
          · have hstep : schedStep st .timeout = (st, []) := by
              simp [schedStep, hh2]
            rw [hstep]
            exact ih ht _ hh

/-- A session terminated by an inline `close-` event is flushed exactly once,
with exactly its events in arrival order, and its buffer entry is removed. -/
theorem session_close_flush (s : String) (hs0 : s ≠ "")
    (hs : goHasPref closePref s = false)
    (I1 I2 : List SchedInput) (term : EventInfo)
    (hterm : term.session = closePref ++ s)
    (h1 : ∀ i ∈ I1, ¬ closesTag s i)
    (h2 : ∀ i ∈ I2, ¬ touchesTag s i)
    (st0 : SchedState) (hc0 : cacheHas s st0.cache = false) :
    (schedRun st0 (I1 ++ SchedInput.ev term :: I2)).2.filter
        (fun f => decide (f.tag = some s)) =
      [⟨some s, sessionEvs s I1 ++ [term], true⟩] ∧
    cacheHas s (schedRun st0 (I1 ++ SchedInput.ev term :: I2)).1.cache = false := by
  obtain ⟨hg1, hf1⟩ := schedRun_clean s hs0 hs I1 h1 st0
  have hget0 : cacheGet s st0.cache = [] := cacheGet_of_not_has hc0
  have hbuf : cacheGet s (schedRun st0 I1).1.cache = sessionEvs s I1 := by
    rw [hg1, hget0]
    simp
  have hterm_ne : term.session ≠ "" := by
    rw [hterm]
    exact closePref_append_ne_empty s
  have hpref : goHasPref closePref term.session = true := by
    rw [hterm]
    exact goHasPref_append s
  have htrim : goTrimPref closePref term.session = s := by
    rw [hterm]
    exact goTrimPref_append s
  have hstep : schedStep (schedRun st0 I1).1 (.ev term) =
      (⟨cacheDel s (schedRun st0 I1).1.cache, (schedRun st0 I1).1.anon⟩,
        [⟨some s, cacheGet s (schedRun st0 I1).1.cache ++ [term], true⟩]) := by
    simp [schedStep, hterm_ne, hpref, htrim]
  have hcd : cacheHas s (cacheDel s (schedRun st0 I1).1.cache) = false := cacheHas_del_self
  obtain ⟨hh2, hf2⟩ := schedRun_untouched s hs0 hs I2 h2
    ⟨cacheDel s (schedRun st0 I1).1.cache, (schedRun st0 I1).1.anon⟩ hcd
  rw [schedRun_append st0 I1 (SchedInput.ev term :: I2), schedRun_cons, hstep]
  constructor
  · rw [List.filter_append, hf1, List.filter_append, hf2]
    simp [List.filter_cons, hbuf]
  · exact hh2

/-- The anonymous timer is a per-event quiescence debounce: while every
arrival gap stays below `D`, no timer ever fires, and the single flush
happens `D` after the last arrival. -/
theorem batchLoop_debounce (D : Nat) :
    ∀ (l : List Nat) (t now buf fuel : Nat),
      l.length + 2 ≤ fuel →
      t < now + D →
      List.Chain' (fun a b => b < a + D) (t :: l) →
      batchLoop D fuel (t :: l) now buf = [(t :: l).getLast (by simp) + D] := by
  intro l
  induction l with
  | nil =>
      intro t now buf fuel hfuel ht _
      cases fuel with
      | zero => omega
      | succ f =>
          cases f with
          | zero => omega
          | succ g =>
              simp only [batchLoop, if_pos ht]
              have hpos : buf + 1 > 0 := Nat.succ_pos buf
              simp only [if_pos hpos, List.getLast_singleton]
  | cons t2 rest ih =>
      intro t now buf fuel hfuel ht hchain
      cases fuel with
      | zero =>
          simp at hfuel
      | succ f =>
          have ht2 : t2 < t + D := (List.chain'_cons.1 hchain).1
          have hch2 : List.Chain' (fun a b => b < a + D) (t2 :: rest) :=
            (List.chain'_cons.1 hchain).2
          have hf2 : (t2 :: rest).length + 2 ≤ f + 1 := by
            simp at hfuel ⊢
            omega
          have hf3 : rest.length + 2 ≤ f := by
            simp at hf2
            omega
          simp only [batchLoop, if_pos ht]
          rw [ih t2 t (buf + 1) f hf3 ht2 hch2]
          have hgl : (t :: t2 :: rest).getLast (by simp) = (t2 :: rest).getLast (by simp) :=
            List.getLast_cons (by simp)
          rw [hgl]

instance decClosesTag (s : String) (i : SchedInput) : Decidable (closesTag s i) :=
  match i with
  | .ev e => inferInstanceAs (Decidable (goHasPref closePref e.session = true ∧
      goTrimPref closePref e.session = s))
  | .closeSession u => inferInstanceAs (Decidable (u = s))
  | .timeout => inferInstanceAs (Decidable False)

instance decTouchesTag (s : String) (i : SchedInput) : Decidable (touchesTag s i) :=
  match i with
  | .ev e => inferInstanceAs (Decidable ((e.session = s) ∨ closesTag s (.ev e)))
  | .closeSession u => inferInstanceAs (Decidable (False ∨ closesTag s (.closeSession u)))
  | .timeout => inferInstanceAs (Decidable (False ∨ closesTag s .timeout))

/-! ### Claim C1 -/

/-- C1 counterexample inputs: three events sharing the path `/p` (a file
create, a folder create, and a delete), with distinct uuids everywhere so no
move fires. -/
def c1Probes : Probes :=
  ⟨fun p h => if p = "/p" ∧ h = none then .found ⟨"/p", "u1", "e1", true⟩
    else if p = "/p" then .found ⟨"/p", "u2", "e2", false⟩ else .err,
   fun p => if p = "/p" then .found ⟨"/p", "u3", "e3", false⟩ else .err⟩

def c1Events : List EventInfo :=
  [⟨.create, "/p", false, false, none, "", ""⟩,
   ⟨.create, "/p", true, false, none, "", ""⟩,
   ⟨.delete, "/p", false, false, none, "", ""⟩]

/-- C1 (counterexample): the claim that after `FilterBatch` every key appears
in at most one of the four collections is false as stated: a batch populated
by `ProcessEvents` from three events sharing path `/p` (file create, folder
create, delete, with the target holding a folder at `/p` and no uuid match)
filters to a batch whose key `/p` sits in `CreateFiles`, `CreateFolders` and
`Deletes` simultaneously. -/
theorem C1_counterexample :
    (FilterBatch c1Probes (populateBatch c1Events)).map
        (fun b => (keysOf b.createFiles, keysOf b.createFolders, keysOf b.deletes,
          keysOf b.fileMoves)) =
      some (["/p"], ["/p"], ["/p"], []) := by
  decide

/-- C1 (amended): for every batch populated by `ProcessEvents` from an event
list with pairwise distinct paths, and for every probe behaviour under which
`FilterBatch` returns, no key appears in more than one of `CreateFiles`,
`CreateFolders`, `FileMoves` and `Deletes`. -/
theorem C1_disjointness_amended (P : Probes) (es : List EventInfo) (bf : Batch)
    (hnd : (es.map EventInfo.path).Nodup)
    (h : FilterBatch P (populateBatch es) = some bf) :
    BatchKeysDisjoint bf := by
  obtain ⟨k1, k2, k3, k4, _, _, _⟩ := populate_basic es
  obtain ⟨s1, s2⟩ := populate_sep es hnd
  exact FilterBatch_disjoint k1 k2 k3 k4 s1 s2 h

def c1wDelete : EventInfo := ⟨.delete, "/x", false, false, none, "", ""⟩

def c1wProbes : Probes :=
  ⟨fun _ _ => .err, fun _ => .found ⟨"/x", "u", "", false⟩⟩

def c1wResult : Batch :=
  ⟨[], [], [("/x", ⟨"/x", c1wDelete, some ⟨"/x", "u", "", false⟩⟩)], [], []⟩

/-- C1 witness: the amended disjointness at a concrete one-delete batch. -/
theorem C1_disjointness_witness : BatchKeysDisjoint c1wResult :=
  C1_disjointness_amended c1wProbes [c1wDelete] c1wResult (by decide) (by decide)

/-! ### Claim C2 -/

/-- C2 failing input: deletes of `/a` and `/ab`, both resolving on the target
to folder nodes at their own paths. -/
def c2Probes : Probes :=
  ⟨fun _ _ => .err,
   fun p => if p = "/a" then .found ⟨"/a", "ua", "", false⟩
     else if p = "/ab" then .found ⟨"/ab", "ub", "", false⟩ else .err⟩

def c2Events : List EventInfo :=
  [⟨.delete, "/a", false, false, none, "", ""⟩,
   ⟨.delete, "/ab", false, false, none, "", ""⟩]

/-- C2: the delete pruning phase has no path-separator guard — the test at
batcher.go line 197 is a plain length-and-prefix test — so on the batch with
target-resolved deletes at `/a` and `/ab` the entry `/ab` is pruned as if it
were a child of `/a`, and only `/a` survives, contradicting the claim (and
spec scenario 5) that both are retained. -/
theorem C2_prune_separator_eval :
    (FilterBatch c2Probes (populateBatch c2Events)).map (fun b => keysOf b.deletes) =
      some ["/a"] := by
  decide

/-! ### Claim C3 -/

def c3CreateEvent : EventInfo := ⟨.create, "/b", false, false, none, "", ""⟩

def c3DeleteEvent : EventInfo := ⟨.delete, "/a", false, false, none, "", ""⟩

def c3Events : List EventInfo := [c3CreateEvent, c3DeleteEvent]

/-- C3 inputs: the created file at `/b` loads with uuid `u` and etag `e1`;
the deleted path `/a` resolves on the target to a leaf with the same uuid `u`
and a different etag `e2`. -/
def c3Probes (u : String) : Probes :=
  ⟨fun p _ => if p = "/b" then .found ⟨"/b", u, "e1", true⟩ else .err,
   fun p => if p = "/a" then .found ⟨"/a", u, "e2", true⟩ else .err⟩

/-- C3 (counterexample): with the create node and the delete node both
carrying an empty uuid and different etags, the UUID pass of batcher.go line
130 still classifies the pair as a move — the code never checks that the
uuid is non-empty, contradicting the claim that a move is classified only on
a non-empty uuid match. -/
theorem C3_counterexample :
    (FilterBatch (c3Probes "") (populateBatch c3Events)).map
        (fun b => (b.createFiles, keysOf b.deletes, b.fileMoves)) =
      some ([], [], [("/b", ⟨"/b", c3CreateEvent, some ⟨"/a", "", "e2", true⟩⟩)]) := by
  decide

theorem find?_split {α : Type} (p : α → Bool) (x : α) (hx : p x = true) :
    ∀ (L1 L2 : List α), (∀ q ∈ L1, p q = false) →
      List.find? p (L1 ++ x :: L2) = some x := by
  intro L1
  induction L1 with
  | nil =>
      intro L2 _
      simp [List.find?_cons, hx]
  | cons a t ih =>
      intro L2 hL
      rw [List.cons_append, List.find?_cons, hL a (List.mem_cons_self a t)]
      exact ih L2 (fun q hq => hL q (List.mem_cons_of_mem a hq))

/-- C3 (amended): in the file move detection phase, for every probe family,
batch state, and delete entry whose resolved target node is a leaf, the UUID
pass classifies a `CreateFiles` entry as a move exactly when its attached
node is non-null and carries the delete node's uuid — the empty uuid
included, as the code performs no non-emptiness check.  When no entry
matches, no move is committed: the step only attaches the node to the delete
entry and records the ETag candidates.  When the scan reaches a first
matching entry, it is claimed immediately: the create entry moves to
`FileMoves` with its node replaced by the target-side node, the delete and
the matching `CreateFiles` entries are removed, and no ETag candidates are
recorded. -/
theorem C3_uuid_move_amended (P : Probes) (st : Batch × List Move)
    (k : String) (de : BatchedEvent) (n : Node)
    (hres : resolveDelete P de = some n) (hleaf : n.leaf = true) :
    ((∀ cf ∈ st.1.createFiles, cf.2.node.map Node.uuid ≠ some n.uuid) →
      phase4Step P st (k, de) =
        ({ st.1 with deletes := kvUpdate k { de with node := some n } st.1.deletes },
         st.2 ++ (etagMatches n.etag st.1.createFiles).map
           (fun cf => ⟨{ de with node := some n }, cf.2, n⟩))) ∧
    (∀ L1 cf L2, st.1.createFiles = L1 ++ cf :: L2 →
      (∀ q ∈ L1, q.2.node.map Node.uuid ≠ some n.uuid) →
      cf.2.node.map Node.uuid = some n.uuid →
      phase4Step P st (k, de) =
        ({ st.1 with
            createFiles := kvErase cf.2.key st.1.createFiles,
            deletes := kvErase de.key (kvUpdate k { de with node := some n } st.1.deletes),
            fileMoves := kvUpsert cf.2.key { cf.2 with node := some n } st.1.fileMoves },
         st.2)) := by
  constructor
  · intro hnone
    have hfind : findUuidMatch n.uuid st.1.createFiles = none := by
      unfold findUuidMatch
      rw [List.find?_eq_none]
      intro c hc
      simpa using hnone c hc
    simp only [phase4Step, hres, phase4Found, hleaf, if_true, hfind]
  · intro L1 cf L2 hsplit hL1 hcf
    have hfind : findUuidMatch n.uuid st.1.createFiles = some cf := by
      unfold findUuidMatch
      rw [hsplit]
      exact find?_split _ cf (decide_eq_true hcf) L1 L2
        (fun q hq => decide_eq_false (hL1 q hq))
    simp only [phase4Step, hres, phase4Found, hleaf, if_true, hfind]

def c3wCF : BatchedEvent := ⟨"/b", c3CreateEvent, some ⟨"/b", "u", "e1", true⟩⟩

def c3wDE : BatchedEvent := ⟨"/a", c3DeleteEvent, none⟩

def c3wBatch : Batch := ⟨[("/b", c3wCF)], [], [("/a", c3wDE)], [], []⟩

/-- Probes for the no-match branch of the C3 witness: the target node at the
deleted path carries a uuid and an etag matched by no create entry. -/
def c3wProbesNone : Probes :=
  ⟨fun _ _ => .err, fun p => if p = "/a" then .found ⟨"/a", "w", "e9", true⟩ else .err⟩

/-- C3 witness: both branches at concrete inputs — no move is committed when
no create matches the target uuid, and an immediate commit happens when the
first create does. -/
theorem C3_uuid_move_witness :
    phase4Step c3wProbesNone (c3wBatch, []) ("/a", c3wDE) =
      (⟨[("/b", c3wCF)], [],
        [("/a", ⟨"/a", c3DeleteEvent, some ⟨"/a", "w", "e9", true⟩⟩)], [], []⟩, []) ∧
    phase4Step (c3Probes "u") (c3wBatch, []) ("/a", c3wDE) =
      (⟨[], [], [], [("/b", ⟨"/b", c3CreateEvent, some ⟨"/a", "u", "e2", true⟩⟩)], []⟩, []) := by
  constructor
  · have h := (C3_uuid_move_amended c3wProbesNone (c3wBatch, []) "/a" c3wDE
        ⟨"/a", "w", "e9", true⟩ (by decide) (by decide)).1 (by decide)
    rw [h]
    decide
  · have h := (C3_uuid_move_amended (c3Probes "u") (c3wBatch, []) "/a" c3wDE
        ⟨"/a", "u", "e2", true⟩ (by decide) (by decide)).2 [] ("/b", c3wCF) [] rfl
        (by simp) (by decide)
    rw [h]
    decide

/-! ### Claim C4 -/

def c4Probes : Probes := ⟨fun _ _ => .missing, fun _ => .err⟩

def c4Events : List EventInfo := [⟨.create, "/q", true, false, none, "", ""⟩]

/-- C4 (counterexample): when the source probe for a create-folder entry
returns a nil node with a nil error, phase 2 (batcher.go line 106) stores the
nil node and keeps the entry: the filtered batch has a `CreateFolders` entry
with a null node, contradicting the claim for the null-node/null-error probe
behaviour. -/
theorem C4_counterexample :
    (FilterBatch c4Probes (populateBatch c4Events)).map
        (fun b => b.createFolders.map (fun p => (p.1, p.2.node))) =
      some [("/q", none)] := by
  decide

/-- C4 (amended): provided no successful create-folder source probe returns a
null node, every entry surviving `FilterBatch` in `CreateFiles`,
`CreateFolders` or `FileMoves` has a non-null node, and every surviving
`Deletes` entry has a non-null node loaded from the target, for every batch
populated by `ProcessEvents`. -/
theorem C4_node_resolution_amended (P : Probes) (es : List EventInfo) (bf : Batch)
    (hmiss : ∀ pth, P.source pth (some false) ≠ .missing)
    (h : FilterBatch P (populateBatch es) = some bf) :
    kvNodes bf.createFiles ∧ kvNodes bf.createFolders ∧
    kvNodes bf.fileMoves ∧ kvNodes bf.deletes := by
  obtain ⟨k1, k2, k3, k4, _, _, _⟩ := populate_basic es
  exact FilterBatch_nodes k1 k2 k3 k4 hmiss h

def c4wProbes : Probes := ⟨fun _ _ => .err, fun _ => .err⟩

/-- C4 witness: node resolution at a concrete one-delete batch. -/
theorem C4_node_resolution_witness :
    kvNodes NewBatch.createFiles ∧ kvNodes NewBatch.createFolders ∧
    kvNodes NewBatch.fileMoves ∧ kvNodes NewBatch.deletes :=
  C4_node_resolution_amended c4wProbes [⟨.delete, "/x", false, false, none, "", ""⟩]
    NewBatch (by intro pth hx; cases hx) (by decide)

/-! ### Claim C5 -/

def c5Probes : Probes := ⟨fun _ _ => .missing, fun _ => .err⟩

def c5Events : List EventInfo := [⟨.create, "/p", false, false, none, "", ""⟩]

/-- C5: the create-file enrichment branch is a fatal error path.  When the
source probe for a non-scan create-file entry returns a nil node with a nil
error, batcher.go line 86 dereferences `node.Uuid` on the nil pointer and
panics; in the model `FilterBatch` yields no batch at all, contradicting the
claim that every branch runs to completion. -/
theorem C5_nil_probe_panic_eval :
    FilterBatch c5Probes (populateBatch c5Events) = none := by
  decide

/-! ### Claim C6 -/

/-- C6 (counterexample): with quiescence duration 10 and anonymous events
arriving every 5 time units from instant 0 through 95 (events continuously
flowing), the loop flushes exactly once, at instant 105: `time.After` is
re-armed on every select iteration, so no flush interval bound of the form
D + ε holds (here an interval of 105 > 10 + 90 passes with no flush), and
the timer is not a deadline measured from the last flush. -/
theorem C6_counterexample :
    batchLoop 10 50 [0, 5, 10, 15, 20, 25, 30, 35, 40, 45, 50, 55, 60, 65, 70, 75, 80, 85,
      90, 95] 0 0 = [105] ∧ 10 + 90 < 105 := by
  decide

/-- C6 (amended): the anonymous timer is a per-event quiescence debounce, not
a deadline from the last flush: whenever consecutive arrival gaps all stay
below D (and the first event arrives within D of loop start), no timer fires
while events flow, and the single flush happens exactly D after the last
arrival. -/
theorem C6_debounce_amended (D : Nat) (l : List Nat) (t now buf fuel : Nat)
    (hfuel : l.length + 2 ≤ fuel) (ht : t < now + D)
    (hchain : List.Chain' (fun a b => b < a + D) (t :: l)) :
    batchLoop D fuel (t :: l) now buf = [(t :: l).getLast (by simp) + D] :=
  batchLoop_debounce D l t now buf fuel hfuel ht hchain

/-- C6 witness: the debounce behaviour at a concrete trace. -/
theorem C6_debounce_witness : batchLoop 10 10 [0, 5, 9] 0 0 = [19] := by
  have h := C6_debounce_amended 10 [5, 9] 0 0 0 10 (by decide) (by decide)
    (List.chain'_cons.2 ⟨by omega, List.chain'_cons.2 ⟨by omega, List.chain'_singleton 9⟩⟩)
  rw [h]
  decide

/-! ### Claim C7 -/

/-- C7: for a session tag `s` (non-empty, not itself `close-`-prefixed), an
input sequence whose `s`-tagged events lie in `I1` (which never closes `s`),
followed by a terminator event tagged `close-s`, followed by inputs not
touching `s`: the scheduler appends the terminator to the `s` buffer, flushes
exactly that buffer as exactly one session batch containing the `s` events in
arrival order, and removes the buffer entry. -/
theorem C7_session_fidelity (s : String) (hs0 : s ≠ "")
    (hs : goHasPref closePref s = false)
    (I1 I2 : List SchedInput) (term : EventInfo)
    (hterm : term.session = closePref ++ s)
    (h1 : ∀ i ∈ I1, ¬ closesTag s i)
    (h2 : ∀ i ∈ I2, ¬ touchesTag s i)
    (st0 : SchedState) (hc0 : cacheHas s st0.cache = false) :
    (schedRun st0 (I1 ++ SchedInput.ev term :: I2)).2.filter
        (fun f => decide (f.tag = some s)) =
      [⟨some s, sessionEvs s I1 ++ [term], true⟩] ∧
    cacheHas s (schedRun st0 (I1 ++ SchedInput.ev term :: I2)).1.cache = false :=
  session_close_flush s hs0 hs I1 I2 term hterm h1 h2 st0 hc0

def c7wE1 : EventInfo := ⟨.create, "/s1", false, false, none, "op", "sessA"⟩

def c7wE2 : EventInfo := ⟨.create, "/s2", false, false, none, "op", "sessA"⟩

def c7wTerm : EventInfo := ⟨.create, "/s3", false, false, none, "op", "close-sessA"⟩

/-- C7 witness: a concrete session of three events flushed exactly once. -/
theorem C7_session_fidelity_witness :
    (schedRun ⟨[], []⟩ ([SchedInput.ev c7wE1, SchedInput.ev c7wE2] ++
        SchedInput.ev c7wTerm :: [])).2.filter
        (fun f => decide (f.tag = some "sessA")) =
      [⟨some "sessA", sessionEvs "sessA" [SchedInput.ev c7wE1, SchedInput.ev c7wE2] ++
        [c7wTerm], true⟩] ∧
    cacheHas "sessA" (schedRun ⟨[], []⟩ ([SchedInput.ev c7wE1, SchedInput.ev c7wE2] ++
        SchedInput.ev c7wTerm :: [])).1.cache = false :=
  C7_session_fidelity "sessA" (by decide) (by decide)
    [SchedInput.ev c7wE1, SchedInput.ev c7wE2] [] c7wTerm (by decide) (by decide)
    (by decide) ⟨[], []⟩ (by decide)

/-! ### Claim C8 -/

/-- C8: a failed source probe for a create entry — in `CreateFiles`
(batcher.go lines 79-83) or in `CreateFolders` (lines 100-104) — is
localized: filtering the batch equals filtering the batch with that entry and
the same-key delete discarded up front (so the error neither aborts the batch
nor triggers a retry), and the key is absent from the filtered collection of
the entry and from the filtered `Deletes`. -/
theorem C8_probe_error_localized (P : Probes) (b : Batch) (k : String) (ce : BatchedEvent)
    (bf : Batch)
    (hkey : kvKeyed b.createFiles) (hkcfo : kvKeyed b.createFolders)
    (hkd : kvKeyed b.deletes)
    (hbf : FilterBatch P b = some bf) :
    ((k, ce) ∈ b.createFiles → (keysOf b.createFiles).Nodup →
      createProbe P none ce.eventInfo = .err →
      FilterBatch P b = FilterBatch P (eraseKeyBatch k b) ∧
      ¬ memKeys k bf.createFiles ∧ ¬ memKeys k bf.deletes) ∧
    ((k, ce) ∈ b.createFolders → (keysOf b.createFolders).Nodup →
      createProbe P (some false) ce.eventInfo = .err →
      FilterBatch P b = FilterBatch P (eraseFolderKeyBatch k b) ∧
      ¬ memKeys k bf.createFolders ∧ ¬ memKeys k bf.deletes) := by
  constructor
  · intro hmem hnd herr
    have heq : FilterBatch P b = FilterBatch P (eraseKeyBatch k b) := by
      unfold FilterBatch
      rw [phase1_localized hmem hkey hnd herr]
    refine ⟨heq, ?_, ?_⟩
    · intro hk
      rw [heq] at hbf
      have h1 : kvKeyed (eraseKeyBatch k b).createFiles := kvKeyed_kvErase hkey
      have h3 : kvKeyed (eraseKeyBatch k b).deletes := kvKeyed_kvErase hkd
      obtain ⟨m1, _, _⟩ := FilterBatch_mono h1 hkcfo h3 hbf
      exact (mem_keysOf_kvErase.1 (m1 k hk)).2 rfl
    · intro hk
      rw [heq] at hbf
      have h1 : kvKeyed (eraseKeyBatch k b).createFiles := kvKeyed_kvErase hkey
      have h3 : kvKeyed (eraseKeyBatch k b).deletes := kvKeyed_kvErase hkd
      obtain ⟨_, m2, _⟩ := FilterBatch_mono h1 hkcfo h3 hbf
      exact (mem_keysOf_kvErase.1 (m2 k hk)).2 rfl
  · intro hmem hnd herr
    have heq : FilterBatch P b = FilterBatch P (eraseFolderKeyBatch k b) :=
      FilterBatch_folder_localized hmem hkey hkcfo hkd hnd herr
    refine ⟨heq, ?_, ?_⟩
    · intro hk
      rw [heq] at hbf
      have h1 : kvKeyed (eraseFolderKeyBatch k b).createFiles := hkey
      have h2 : kvKeyed (eraseFolderKeyBatch k b).createFolders := kvKeyed_kvErase hkcfo
      have h3 : kvKeyed (eraseFolderKeyBatch k b).deletes := kvKeyed_kvErase hkd
      obtain ⟨_, _, m3⟩ := FilterBatch_mono h1 h2 h3 hbf
      exact (mem_keysOf_kvErase.1 (m3 k hk)).2 rfl
    · intro hk
      rw [heq] at hbf
      have h1 : kvKeyed (eraseFolderKeyBatch k b).createFiles := hkey
      have h2 : kvKeyed (eraseFolderKeyBatch k b).createFolders := kvKeyed_kvErase hkcfo
      have h3 : kvKeyed (eraseFolderKeyBatch k b).deletes := kvKeyed_kvErase hkd
      obtain ⟨_, m2, _⟩ := FilterBatch_mono h1 h2 h3 hbf
      exact (mem_keysOf_kvErase.1 (m2 k hk)).2 rfl

def c8Probes : Probes := ⟨fun _ _ => .err, fun _ => .err⟩

def c8Create : BatchedEvent := ⟨"/p", ⟨.create, "/p", false, false, none, "", ""⟩, none⟩

def c8Delete : BatchedEvent := ⟨"/p", ⟨.delete, "/p", false, false, none, "", ""⟩, none⟩

def c8Folder : BatchedEvent := ⟨"/q", ⟨.create, "/q", true, false, none, "", ""⟩, none⟩

def c8FolderDelete : BatchedEvent := ⟨"/q", ⟨.delete, "/q", false, false, none, "", ""⟩, none⟩

def c8Batch : Batch :=
  ⟨[("/p", c8Create)], [("/q", c8Folder)], [("/p", c8Delete), ("/q", c8FolderDelete)], [], []⟩

/-- C8 witness: localization of a failed create-file probe and of a failed
create-folder probe at a concrete batch with one entry of each kind. -/
theorem C8_probe_error_localized_witness :
    ((FilterBatch c8Probes c8Batch = FilterBatch c8Probes (eraseKeyBatch "/p" c8Batch) ∧
      ¬ memKeys "/p" NewBatch.createFiles ∧ ¬ memKeys "/p" NewBatch.deletes) ∧
     (FilterBatch c8Probes c8Batch = FilterBatch c8Probes (eraseFolderKeyBatch "/q" c8Batch) ∧
      ¬ memKeys "/q" NewBatch.createFolders ∧ ¬ memKeys "/q" NewBatch.deletes)) :=
  ⟨(C8_probe_error_localized c8Probes c8Batch "/p" c8Create NewBatch (by decide) (by decide)
      (by decide) (by decide)).1 (by decide) (by decide) (by decide),
   (C8_probe_error_localized c8Probes c8Batch "/q" c8Folder NewBatch (by decide) (by decide)
      (by decide) (by decide)).2 (by decide) (by decide) (by decide)⟩

/-! ### Claim C9 -/

def c9Probes : Probes := ⟨fun _ _ => .err, fun _ => .err⟩

def c9Events : List EventInfo := [⟨.create, "/a", false, false, none, "", ""⟩]

/-- C9 (counterexample): the batch produced by a session flush carries no
`asSession` mark at all: `ProcessEvents` with `asSession` true and with
`asSession` false produce the very same batch on the same events (the only
use of the flag in the source is commented out), so session batches are not
distinguishable by any hint on the batch. -/
theorem C9_counterexample :
    ProcessEvents c9Probes c9Events true = ProcessEvents c9Probes c9Events false ∧
    (ProcessEvents c9Probes c9Events true).isSome = true := by
  decide

/-- C9 (amended): `ProcessEvents` accepts the `asSession` flag but ignores
it: for every probe behaviour, event list, and pair of flag values the
produced batch is identical. -/
theorem C9_asSession_ignored (P : Probes) (events : List EventInfo) (a b : Bool) :
    ProcessEvents P events a = ProcessEvents P events b := rfl

/-! ### Claim C10 -/

def c10Event : EventInfo := ⟨.delete, "", false, false, none, "", ""⟩

/-- C10 (counterexample): an event with an empty path (no session tag, no
operation id) is not dropped at ingestion: the scheduler appends it to the
anonymous buffer, the timer flush emits it, and it populates a batch entry
under the empty key. -/
theorem C10_counterexample :
    schedRun ⟨[], []⟩ [SchedInput.ev c10Event, SchedInput.timeout] =
      (⟨[], []⟩, [⟨none, [c10Event], false⟩]) ∧
    keysOf (populateBatch [c10Event]).deletes = [""] := by
  decide

/-- C10 (amended): the events silently dropped at ingestion are exactly those
carrying a non-empty operation id with no session tag and no scan flag:
removing such an event from the input stream changes neither the scheduler
state nor any flush; path validity plays no role. -/
theorem C10_ignored_drop_amended (e : EventInfo) (st : SchedState)
    (l1 l2 : List SchedInput)
    (hop : e.operationId ≠ "") (hsess : e.session = "") (hscan : e.scanEvent = false) :
    schedRun st (l1 ++ SchedInput.ev e :: l2) = schedRun st (l1 ++ l2) := by
  rw [schedRun_append, schedRun_append, schedRun_cons]
  have hstep : schedStep (schedRun st l1).1 (.ev e) = ((schedRun st l1).1, []) := by
    simp [schedStep, hsess, hscan, hop]
  rw [hstep]
  simp

def c10wEvent : EventInfo := ⟨.create, "/x", false, false, none, "op1", ""⟩

/-- C10 witness: dropping a concrete ignored event. -/
theorem C10_ignored_drop_witness :
    schedRun ⟨[], []⟩ ([] ++ SchedInput.ev c10wEvent :: [SchedInput.timeout]) =
      schedRun ⟨[], []⟩ ([] ++ [SchedInput.timeout]) :=
  C10_ignored_drop_amended c10wEvent ⟨[], []⟩ [] [SchedInput.timeout]
    (by decide) (by decide) (by decide)

end Batcher
